import Mathlib

/-!
Verification of the `mongod` server-lifecycle wrapper (Mongod.js).

The development shallowly embeds the source file:
* `splitNl` / `aggFeed` / `aggRun` — `Mongod.getTextLineAggregator`;
* `matchAt` / `scanFuel` / `jsMatchAll` / `classifyMatch` / `classify` —
  the `keyRE` scan and `matchHandler` classification;
* `parseConfig` / `parseFlags` / `construct` — configuration handling;
* `openWithCallback` — the `promise.then(callback).catch(callback)` wrapper;
* `SState` / `step` / `run` — the open/close lifecycle state machine over the
  single-concurrency serialization queue.
-/

namespace MongodModel

/- ### JS character primitives -/

/-- The JS whitespace class `\s`, restricted to the ASCII characters that can
occur in the byte-oriented streams the wrapper reads. -/
def isJsWS (c : Char) : Bool :=
  c = ' ' || c = '\t' || c = '\n' || c = '\r' || c = '\x0b' || c = '\x0c'

/-- Lower-casing used for the `i` regex flag and `String.prototype.toLowerCase`
(ASCII range). -/
def lc (c : Char) : Char := c.toLower

/-- Lower-case image of a character list. -/
def lcStr (s : List Char) : List Char := s.map lc

/- ### Line aggregation (`Mongod.getTextLineAggregator`) -/

/-- `String.prototype.split` on the regex `/\r?\n/` (`newlineRE`): each `\n`,
optionally preceded by `\r`, is a separator; a lone `\r` is ordinary text. -/
def splitNl : List Char → List (List Char)
  | [] => [[]]
  | '\r' :: '\n' :: rest => [] :: splitNl rest
  | '\n' :: rest => [] :: splitNl rest
  | c :: rest =>
    match splitNl rest with
    | [] => [[c]]
    | f :: fs => (c :: f) :: fs

/-- One invocation of the closure returned by `Mongod.getTextLineAggregator`:
given the buffered partial line and a data chunk, produce the list of lines
passed to the callback and the new buffer.  The translation keeps the JS
behaviour of `lines[0] = buffer + lines[0]` exactly: when the chunk holds no
newline, `lines` is empty, `lines[0]` reads `undefined`, and the assignment
stores `buffer + "undefined"` as a new element, which the loop then delivers. -/
def aggFeed (buffer : List Char) (chunk : List Char) : List (List Char) × List Char :=
  let fragments := splitNl chunk
  let lines := fragments.dropLast
  let lines1 :=
    match lines with
    | [] => [buffer ++ ('u' :: 'n' :: 'd' :: 'e' :: 'f' :: 'i' :: 'n' :: 'e' :: 'd' :: [])]
    | l :: ls => (buffer ++ l) :: ls
  (lines1, (fragments.getLast?).getD [])

/-- Feed a sequence of chunks to a fresh aggregator and collect every line
delivered to the callback (and the final buffer). -/
def aggRun (chunks : List (List Char)) : List (List Char) × List Char :=
  chunks.foldl (fun acc c =>
    let fl := aggFeed acc.2 c
    (acc.1 ++ fl.1, fl.2)) ([], [])

/- ### Configuration (`Mongod.parseConfig`, `Mongod.parseFlags`, constructor) -/

/-- A JS value as far as the configuration code observes it. -/
inductive JsVal where
  | vnull
  | vundef
  | vnum (n : Int)
  | vstr (s : String)
  | vbool (b : Bool)
  deriving DecidableEq

/-- The JS loose test `v != null` (false exactly for `null` and `undefined`). -/
def jsNotNull : JsVal → Bool
  | .vnull => false
  | .vundef => false
  | _ => true

/-- A configuration object.  The source only ever reads `bin`, `conf`,
`dbpath` and `port`; `storageEngine` and `nojournal` are carried because a JS
object may hold them (and the spec, changelog and tests refer to them). -/
structure Config where
  bin : JsVal
  conf : JsVal
  port : JsVal
  dbpath : JsVal
  storageEngine : JsVal
  nojournal : JsVal
  deriving DecidableEq

/-- A JS object with every property absent (`Object.create(null)`). -/
def emptyObj : Config :=
  ⟨.vundef, .vundef, .vundef, .vundef, .vundef, .vundef⟩

/-- `Mongod.parseConfig(source, target)`.  `none` stands for a `null` or
`undefined` argument. -/
def parseConfig (source : Option Config) (target : Option Config) : Config :=
  let t := target.getD emptyObj
  match source with
  | none => t
  | some src =>
    let t1 := if jsNotNull src.bin then { t with bin := src.bin } else t
    if jsNotNull src.conf then { t1 with conf := src.conf }
    else
      let t2 := if jsNotNull src.dbpath then { t1 with dbpath := src.dbpath } else t1
      if jsNotNull src.port then { t2 with port := src.port } else t2

/-- `Mongod.parseFlags(config)`. -/
def parseFlags (config : Config) : List JsVal :=
  if jsNotNull config.conf then [.vstr "--config", config.conf]
  else
    let flags : List JsVal := []
    let flags := if jsNotNull config.dbpath then flags ++ [.vstr "--dbpath", config.dbpath] else flags
    let flags := if jsNotNull config.port then flags ++ [.vstr "--port", config.port] else flags
    flags

/-- Modelled from the spec: `parseFlags` as §4.4 and the changelog describe it
(the repository's test suite expects the same flag list), including the
`--nojournal` and `--storageEngine` flags missing from `Mongod.js`. -/
def parseFlagsSpec (config : Config) : List JsVal :=
  if jsNotNull config.conf then [.vstr "--config", config.conf]
  else
    let flags : List JsVal := []
    let flags := if config.nojournal = .vbool true then flags ++ [.vstr "--nojournal"] else flags
    let flags := if jsNotNull config.storageEngine then flags ++ [.vstr "--storageEngine", config.storageEngine] else flags
    let flags := if jsNotNull config.dbpath then flags ++ [.vstr "--dbpath", config.dbpath] else flags
    let flags := if jsNotNull config.port then flags ++ [.vstr "--port", config.port] else flags
    flags

/- ### The `keyRE` scan and `matchHandler` classification -/

/-- Consume a literal (given in lower case) case-insensitively from the head
of `s`, returning the rest. -/
def litCI (pat : List Char) (s : List Char) : Option (List Char) :=
  match pat, s with
  | [], rest => some rest
  | _ :: _, [] => none
  | p :: ps, c :: cs => if lc c = p then litCI ps cs else none

/-- Greedy `\s*`: length of the maximal whitespace run and the rest. -/
def takeWS : List Char → Nat × List Char
  | [] => (0, [])
  | c :: cs =>
    if isJsWS c then
      let r := takeWS cs
      (r.1 + 1, r.2)
    else (0, c :: cs)

/-- Greedy `\d*`: length of the maximal digit run and the rest. -/
def takeDigits : List Char → Nat × List Char
  | [] => (0, [])
  | c :: cs =>
    if c.isDigit then
      let r := takeDigits cs
      (r.1 + 1, r.2)
    else (0, c :: cs)

/-- The `pid=\d+` / `port=\d+` alternatives: the literal case-insensitively,
then one or more digits (greedy). -/
def numAlt (pat : List Char) (s : List Char) : Option (List Char) :=
  match litCI pat s with
  | none => none
  | some s1 =>
    let d := takeDigits s1
    if d.1 = 0 then none else some d.2

/-- A `<w1>\s+<w2>\s+<w3>` alternative: three literals separated by nonempty
whitespace runs.  The runs are taken maximally; no backtracking is needed
because each literal starts with a letter, never whitespace. -/
def phraseAlt (w1 w2 w3 : List Char) (s : List Char) : Option (List Char) :=
  match litCI w1 s with
  | none => none
  | some s1 =>
    let r1 := takeWS s1
    if r1.1 = 0 then none
    else
      match litCI w2 r1.2 with
      | none => none
      | some s2 =>
        let r2 := takeWS s2
        if r2.1 = 0 then none else litCI w3 r2.2

/-- The `(error|exception|badvalue)` token, tried in alternation order. -/
def errTok (s : List Char) : Option (List Char) :=
  match litCI "error".data s with
  | some r => some r
  | none =>
    match litCI "exception".data s with
    | some r => some r
    | none => litCI "badvalue".data s

/-- Try the alternatives of `keyRE` at the head of `s` in their alternation
order, returning the match length.  The error alternative ends in `(.|\n)*`,
which greedily consumes the whole remainder. -/
def matchAt (s : List Char) : Option Nat :=
  match numAlt "pid=".data s with
  | some r => some (s.length - r.length)
  | none =>
    match numAlt "port=".data s with
    | some r => some (s.length - r.length)
    | none =>
      match phraseAlt "waiting".data "for".data "connections".data s with
      | some r => some (s.length - r.length)
      | none =>
        match phraseAlt "already".data "in".data "use".data s with
        | some r => some (s.length - r.length)
        | none =>
          match phraseAlt "denied".data "for".data "socket".data s with
          | some r => some (s.length - r.length)
          | none =>
            match errTok s with
            | some _ => some s.length
            | none => none

/-- The global scan performed by `value.match(keyRE)`: find the leftmost
match, emit it, and continue right after it.  Every alternative consumes at
least one character, so `fuel = s.length` suffices. -/
def scanFuel : Nat → List Char → List (List Char)
  | 0, _ => []
  | _ + 1, [] => []
  | fuel + 1, c :: rest =>
    match matchAt (c :: rest) with
    | some n => (c :: rest).take n :: scanFuel fuel ((c :: rest).drop n)
    | none => scanFuel fuel rest

/-- All `keyRE` matches of a string, leftmost first. -/
def jsMatchAll (s : List Char) : List (List Char) := scanFuel s.length s

/-- A lifecycle signal extracted from one `keyRE` match by `matchHandler`. -/
inductive Signal where
  | pid (n : Nat)
  | port (n : Nat)
  | ready
  | err (code : Int) (msg : List Char)
  deriving DecidableEq

/-- Whether a signal is one of the error signals. -/
def Signal.isErr : Signal → Bool
  | .err _ _ => true
  | _ => false

/-- Case-insensitive substring test. -/
def containsCI (pat : List Char) : List Char → Bool
  | [] => (litCI pat []).isSome
  | c :: cs => (litCI pat (c :: cs)).isSome || containsCI pat cs

/-- `errorRE.test(match)` for `/^error|exception|badvalue/i`: `error` anchored
at the start, `exception` and `badvalue` anywhere. -/
def errorTest (s : List Char) : Bool :=
  (litCI "error".data s).isSome || containsCI "exception".data s ||
    containsCI "badvalue".data s

/-- `String.prototype.trim`. -/
def jsTrim (s : List Char) : List Char :=
  ((s.dropWhile (isJsWS ·)).reverse.dropWhile (isJsWS ·)).reverse

/-- `match.split('=')[0]`: the characters before the first `=`. -/
def beforeEq : List Char → List Char
  | [] => []
  | c :: cs => if c = '=' then [] else c :: beforeEq cs

/-- `match.split('=')[1]`: the characters between the first and second `=`,
or `undefined` when there is no `=`. -/
def afterEq : List Char → Option (List Char)
  | [] => none
  | c :: cs => if c = '=' then some (beforeEq cs) else afterEq cs

/-- `Number(v)` on the digit strings captured by `pid=\d+` / `port=\d+`. -/
def digitsVal (s : List Char) : Nat :=
  s.foldl (fun acc c => acc * 10 + (c.toNat - '0'.toNat)) 0

/-- The pure classification `matchHandler` performs on one match: test
`errorRE`, otherwise compute `k = t[0].replace(/ /g, '').toLowerCase()` and
`v = t[1]`, then dispatch on `k` as the `switch` does.  (The `case 'error'`
arm is also reachable through the computed key; it is kept for faithfulness
although no `keyRE` match reaches it.) -/
def classifyMatch (m : List Char) : Option Signal :=
  if errorTest m then some (.err (-1) (jsTrim m))
  else
    let k := lcStr ((beforeEq m).filter (fun c => c ≠ ' '))
    let v := afterEq m
    if k = "error".data then some (.err (-1) (v.getD []))
    else if k = "alreadyinuse".data then some (.err (-2) "Address already in use".data)
    else if k = "deniedforsocket".data then some (.err (-3) "Permission denied".data)
    else if k = "pid".data then some (.pid (digitsVal (v.getD [])))
    else if k = "port".data then some (.port (digitsVal (v.getD [])))
    else if k = "waitingforconnections".data then some .ready
    else none

/-- The signals `matchHandler` computes for one aggregated line, in match
order. -/
def classify (line : String) : List Signal :=
  (jsMatchAll line.data).filterMap classifyMatch

/-- Whether a `<w1>\s+<w2>\s+<w3>` pattern occurs anywhere in a string. -/
def containsSpaced (w1 w2 w3 : List Char) : List Char → Bool
  | [] => (phraseAlt w1 w2 w3 []).isSome
  | c :: cs => (phraseAlt w1 w2 w3 (c :: cs)).isSome || containsSpaced w1 w2 w3 cs

/-- Whether an `error` / `exception` / `badvalue` token occurs anywhere in a
string (case-insensitively). -/
def containsToken (s : List Char) : Bool :=
  containsCI "error".data s || containsCI "exception".data s ||
    containsCI "badvalue".data s

/-- The argument accepted by the `Mongod` constructor, tagged by its JS
`typeof` dispatch (`typeof null` is `"object"`). -/
inductive CtorArg where
  | num (n : Int)
  | str (s : String)
  | obj (o : Config)
  | nullA
  | undef
  | bool (b : Bool)
  deriving DecidableEq

/-- The default instance configuration built by the constructor. -/
def defaultConfig : Config :=
  { bin := .vstr "mongod", conf := .vnull, port := .vnum 27017, dbpath := .vnull,
    storageEngine := .vundef, nojournal := .vundef }

/-- The `Mongod` constructor restricted to its effect on `this.config`. -/
def construct : CtorArg → Config
  | .num n => { defaultConfig with port := .vnum n }
  | .str s => { defaultConfig with port := .vstr s }
  | .obj o => parseConfig (some o) (some defaultConfig)
  | .nullA => parseConfig none (some defaultConfig)
  | .undef => defaultConfig
  | .bool _ => defaultConfig

/-- A nonempty run of JS whitespace. -/
def WSRun (w : List Char) : Prop := w ≠ [] ∧ ∀ c ∈ w, isJsWS c = true

/-- The lower-cased image of a `pid=\d+` / `port=\d+` match. -/
def NumShape (pat m : List Char) : Prop :=
  ∃ d, lcStr m = pat ++ d ∧ d ≠ [] ∧ ∀ c ∈ d, c.isDigit = true

/-- The lower-cased image of a `<w1>\s+<w2>\s+<w3>` match. -/
def PhraseShape (w1 w2 w3 m : List Char) : Prop :=
  ∃ a b, WSRun a ∧ WSRun b ∧ lcStr m = w1 ++ a ++ w2 ++ b ++ w3

/-- The lower-cased image of an `(error|exception|badvalue)(.|\n)*` match. -/
def ErrShape (m : List Char) : Prop :=
  (∃ r, lcStr m = "error".data ++ r) ∨ (∃ r, lcStr m = "exception".data ++ r) ∨
    ∃ r, lcStr m = "badvalue".data ++ r

/-- Any `keyRE` match takes one of the six alternative shapes. -/
def MatchShape (m : List Char) : Prop :=
  NumShape "pid=".data m ∨ NumShape "port=".data m ∨
    PhraseShape "waiting".data "for".data "connections".data m ∨
    PhraseShape "already".data "in".data "use".data m ∨
    PhraseShape "denied".data "for".data "socket".data m ∨ ErrShape m

/- ### The lifecycle state machine (`Mongod.open` / `Mongod.close`) -/

/-- Settlement of a promise: the lifecycle code resolves with `null` and
rejects with the classifier errors, so an outcome is either of those. -/
inductive Settle where
  | resolved
  | rejected (code : Int) (msg : List Char)
  deriving DecidableEq

/-- The kind of a queued operation body. -/
inductive BodyKind where
  | openB
  | closeB
  deriving DecidableEq

/-- A queued operation body, identified by the wrapper promise that
`promiseQueue.add` returned to the caller. -/
structure Task where
  kind : BodyKind
  wrapper : Nat
  deriving DecidableEq

/-- The operation body currently executing (`pendingPromises = 1`), with the
settlement of the promise its generator returned, once that has settled. -/
inductive Active where
  | openBody (wrapper : Nat) (inner : Option Settle)
  | closeBody (wrapper : Nat) (inner : Option Settle)
  deriving DecidableEq

/-- The wrapper promise of a running body. -/
def Active.wrapperOf : Active → Nat
  | .openBody w _ => w
  | .closeBody w _ => w

/-- An entry of the observable event log. -/
inductive Note where
  | emit (s : String)
  | spawn (procId : Nat)
  | kill (procId : Nat)
  | bodyStart (wrapper : Nat)
  | bodyEnd (wrapper : Nat)
  deriving DecidableEq

/-- The state of one `Mongod` instance together with its serialization queue,
promise registry and event log.  Promises and processes are identified by
numbers allocated from `nextP` / `nextProc`. -/
structure SState where
  pid : Option Nat
  port : Option Nat
  proc : Option Nat
  isOpening : Bool
  isClosing : Bool
  isRunning : Bool
  openP : Nat
  closeP : Nat
  nextP : Nat
  nextProc : Nat
  settles : List (Nat × Settle)
  queue : List Task
  active : Option Active
  listener : Bool
  aggBuf : List Char
  log : List Note
  deriving DecidableEq

/-- A freshly constructed instance: no process, all flags false, and
`openPromise` / `closePromise` already resolved (`Promise.resolve(null)`). -/
def init : SState where
  pid := none
  port := none
  proc := none
  isOpening := false
  isClosing := false
  isRunning := false
  openP := 0
  closeP := 1
  nextP := 2
  nextProc := 0
  settles := [(0, .resolved), (1, .resolved)]
  queue := []
  active := none
  listener := false
  aggBuf := []
  log := []

/-- Settle a promise; a promise settles at most once (first settlement wins). -/
def settleP (s : SState) (p : Nat) (o : Settle) : SState :=
  if (s.settles.lookup p).isSome then s
  else { s with settles := (p, o) :: s.settles }

/-- Run the generator of an open body (the function `Mongod.open` queued).
If the instance is closing or already running it returns
`Promise.resolve(null)` after clearing `isOpening`; otherwise it emits
"opening", spawns the process and attaches a fresh classifying data handler,
leaving the returned promise pending until `matchHandler` settles it. -/
def runOpenGen (s : SState) (w : Nat) : SState :=
  if s.isClosing || s.isRunning then
    { s with isOpening := false, active := some (.openBody w (some .resolved)) }
  else
    { s with
      log := s.log ++ [Note.emit "opening", Note.spawn s.nextProc]
      proc := some s.nextProc
      nextProc := s.nextProc + 1
      listener := true
      aggBuf := []
      active := some (.openBody w none) }

/-- Run the generator of a close body (the function `Mongod.close` queued).
If the instance is opening or not running it returns `Promise.resolve(null)`
after clearing `isClosing`; otherwise it emits "closing" and kills the
process, leaving the returned promise pending until the process closes. -/
def runCloseGen (s : SState) (w : Nat) : SState :=
  if s.isOpening || !s.isRunning then
    { s with isClosing := false, active := some (.closeBody w (some .resolved)) }
  else
    { s with
      log := s.log ++ [Note.emit "closing", Note.kill (s.proc.getD 0)]
      active := some (.closeBody w none) }

/-- Modelled from the spec: `PromiseQueue._dequeue` with
`maxPendingPromises = 1` (the `promise-queue` dependency is not under `src/`;
the spec describes it as the single-slot serialization queue).  When no body
is running, pop the queue head and run its generator. -/
def tryDequeue (s : SState) : SState :=
  if s.active.isSome then s
  else
    match s.queue with
    | [] => s
    | t :: rest =>
      let s1 := { s with queue := rest, log := s.log ++ [Note.bodyStart t.wrapper] }
      match t.kind with
      | .openB => runOpenGen s1 t.wrapper
      | .closeB => runCloseGen s1 t.wrapper

/-- Whether the running body's generator promise has settled. -/
def activeDone (s : SState) : Bool :=
  match s.active with
  | some (.openBody _ (some _)) => true
  | some (.closeBody _ (some _)) => true
  | _ => false

/-- The `then` handler inside the queue: when the running body's generator
promise has settled, settle the wrapper promise with the same outcome, free
the slot and dequeue the next body. -/
def settleActive (s : SState) : SState :=
  match s.active with
  | some (.openBody w (some o)) =>
    let s1 := settleP s w o
    tryDequeue { s1 with active := none, log := s1.log ++ [Note.bodyEnd w] }
  | some (.closeBody w (some o)) =>
    let s1 := settleP s w o
    tryDequeue { s1 with active := none, log := s1.log ++ [Note.bodyEnd w] }
  | _ => s

/-- Run the pending microtasks to quiescence: settle finished bodies and start
queued ones.  Every iteration consumes a body, so `queue.length + 1` fuel
suffices. -/
def drainFuel : Nat → SState → SState
  | 0, s => s
  | fuel + 1, s =>
    if activeDone s then drainFuel fuel (settleActive s)
    else if s.active.isNone && !s.queue.isEmpty then drainFuel fuel (tryDequeue s)
    else s

/-- The microtask drain executed after each synchronous event handler. -/
def drain (s : SState) : SState := drainFuel (s.queue.length + 1) s

/-- Settle the promise created inside the open body, whose `resolve` and
`reject` are what `matchHandler` captured (first settlement wins). -/
def settleOpenInner (s : SState) (o : Settle) : SState :=
  match s.active with
  | some (.openBody w none) => { s with active := some (.openBody w (some o)) }
  | _ => s

/-- The effects of `matchHandler` on one match: `pid`/`port` store the number
and return `false` (more matches expected); `waitingforconnections` marks the
server running, emits "open", clears `isOpening` and resolves; the error keys
clear `isOpening` and reject; anything else returns `false`. -/
def matchStep (s : SState) (m : List Char) : SState × Bool :=
  match classifyMatch m with
  | some (.pid n) => ({ s with pid := some n }, false)
  | some (.port n) => ({ s with port := some n }, false)
  | some .ready =>
    let s1 := { s with isRunning := true, log := s.log ++ [Note.emit "open"], isOpening := false }
    (settleOpenInner s1 .resolved, true)
  | some (.err c msg) =>
    (settleOpenInner { s with isOpening := false } (.rejected c msg), true)
  | none => (s, false)

/-- The data handler's loop over the matches of one line: feed each match to
`matchHandler` until one is terminal, then remove the data listener — which
stops classification of later chunks, not of the remaining lines of the
current chunk. -/
def matchLoop : SState → List (List Char) → SState
  | s, [] => s
  | s, m :: ms =>
    let p := matchStep s m
    if p.2 then { p.1 with listener := false } else matchLoop p.1 ms

/-- The per-line callback of the classifying data handler. -/
def lineStep (s : SState) (line : List Char) : SState :=
  matchLoop s (jsMatchAll line)

/-- A `data` event from the spawned process: if the classifying listener is
attached, aggregate the chunk into lines and classify each; afterwards the
microtasks run.  The raw pass-through listeners only re-emit lines and are
not modelled. -/
def dataStep (s : SState) (chunk : List Char) : SState :=
  match s.proc with
  | none => s
  | some _ =>
    if s.listener then
      let fl := aggFeed s.aggBuf chunk
      drain ((fl.1).foldl lineStep { s with aggBuf := fl.2 })
    else s

/-- The process `close` event: the handler registered by the open body clears
the process handle, pid, port and the running/closing flags and emits
"close"; the `once('close')` handler registered by a waiting close body then
resolves that body. -/
def procCloseStep (s : SState) : SState :=
  match s.proc with
  | none => s
  | some _ =>
    let s1 := { s with
      proc := none, port := none, pid := none,
      isRunning := false, isClosing := false,
      log := s.log ++ [Note.emit "close"] }
    match s1.active with
    | some (.closeBody w none) =>
      drain { s1 with active := some (.closeBody w (some .resolved)) }
    | _ => drain s1

/-- `Mongod.open(server)`: coalesce onto the pending attempt while
`isOpening`; otherwise flip the flags, enqueue a new open body and return its
wrapper promise (`promiseQueue.add` dequeues synchronously when idle). -/
def callOpen (s : SState) : SState × Nat :=
  if s.isOpening then (s, s.openP)
  else
    let w := s.nextP
    let s1 := { s with
      isOpening := true, isClosing := false,
      openP := w, nextP := w + 1,
      queue := s.queue ++ [⟨.openB, w⟩] }
    (drain (tryDequeue s1), w)

/-- `Mongod.close(server)`: coalesce onto the pending attempt while
`isClosing`; otherwise flip the flags, enqueue a new close body and return
its wrapper promise. -/
def callClose (s : SState) : SState × Nat :=
  if s.isClosing then (s, s.closeP)
  else
    let w := s.nextP
    let s1 := { s with
      isClosing := true, isOpening := false,
      closeP := w, nextP := w + 1,
      queue := s.queue ++ [⟨.closeB, w⟩] }
    (drain (tryDequeue s1), w)

/-- External events driving one instance: the public calls, chunks arriving
from the spawned process and the process exiting. -/
inductive XEv where
  | callO
  | callC
  | data (chunk : String)
  | procClose
  deriving DecidableEq

/-- One external event followed by its microtasks. -/
def step (s : SState) : XEv → SState
  | .callO => (callOpen s).1
  | .callC => (callClose s).1
  | .data c => dataStep s c.data
  | .procClose => procCloseStep s

/-- Run an instance from construction through a sequence of events. -/
def run (tr : List XEv) : SState := tr.foldl step init

/- ### Serialization of the queued operation bodies -/

/-- One note of the serialization check (see `serialScan`). -/
def serialNote (cur : Option Nat) (lo : Nat) : Note → Option (Option Nat × Nat)
  | .bodyStart w =>
    match cur with
    | none => if lo ≤ w then some (some w, w + 1) else none
    | some _ => none
  | .bodyEnd w' =>
    match cur with
    | some w => if w = w' then some (none, lo) else none
    | none => none
  | .emit _ => some (cur, lo)
  | .spawn _ => some (cur, lo)
  | .kill _ => some (cur, lo)

/-- Fold over the log checking that body events are well nested and ordered:
`cur` is the body currently running (if any) and `lo` a lower bound on the
wrapper ids of bodies yet to start.  The fold fails (`none`) if a body starts
while another runs, starts out of call order, or ends while not running. -/
def serialScan (cur : Option Nat) (lo : Nat) : List Note → Option (Option Nat × Nat)
  | [] => some (cur, lo)
  | n :: rest =>
    match serialNote cur lo n with
    | some p => serialScan p.1 p.2 rest
    | none => none

/-- The standing invariant tying the event log, the queue, the promise
registry and the flags together: the log is serialized with the running body
as its open entry, queued bodies have fresh, increasing wrappers, and a
rejected open attempt implies `isOpening` is already cleared. -/
structure QInv (s : SState) : Prop where
  scan : ∃ lo, serialScan none 0 s.log = some (s.active.map Active.wrapperOf, lo) ∧
    (∀ t ∈ s.queue, lo ≤ t.wrapper) ∧ lo ≤ s.nextP
  qsorted : s.queue.Pairwise (fun a b => a.wrapper < b.wrapper)
  qbound : ∀ t ∈ s.queue, t.wrapper < s.nextP
  openPlt : s.openP < s.nextP
  closePlt : s.closeP < s.nextP
  activeLt : ∀ a, s.active = some a → a.wrapperOf < s.nextP
  settleKey : ∀ p o, (p, o) ∈ s.settles → p < s.nextP
  rejLookup : ∀ c m, s.settles.lookup s.openP = some (.rejected c m) →
    s.isOpening = false
  rejActive : ∀ c m, s.active = some (.openBody s.openP (some (.rejected c m))) →
    s.isOpening = false
  closeRes : ∀ w o, s.active = some (.closeBody w (some o)) → o = .resolved

/-- Notes that leave the serialization state untouched. -/
def passNote : Note → Bool
  | .emit _ => true
  | .spawn _ => true
  | .kill _ => true
  | .bodyStart _ => false
  | .bodyEnd _ => false

/- ### The completion callback (`Mongod#open` / `Mongod#close`) -/

/-- A JS value observed by the completion callback. -/
inductive JsArg where
  | nullV
  | undefV
  | errV (code : Int) (msg : List Char)
  deriving DecidableEq

/-- A settled JS promise. -/
inductive PState where
  | fulfilled (v : JsArg)
  | rejectedP (e : JsArg)
  deriving DecidableEq

/-- The promise an attempt settles into: the lifecycle code calls
`resolve(null)` or `reject(err)`. -/
def promiseOf : Settle → PState
  | .resolved => .fulfilled .nullV
  | .rejected c m => .rejectedP (.errV c m)

/-- `p.then(callback)`: on fulfilment invoke the callback with the fulfilment
value as its one argument; its return value (`undefined`) fulfils the result;
a rejection passes through untouched.  The second component accumulates the
argument lists of the callback invocations. -/
def thenCb : PState × List (List JsArg) → PState × List (List JsArg)
  | (.fulfilled v, calls) => (.fulfilled .undefV, calls ++ [[v]])
  | (.rejectedP e, calls) => (.rejectedP e, calls)

/-- `p.catch(callback)`: on rejection invoke the callback with the error as
its one argument; a fulfilment passes through untouched. -/
def catchCb : PState × List (List JsArg) → PState × List (List JsArg)
  | (.fulfilled v, calls) => (.fulfilled v, calls)
  | (.rejectedP e, calls) => (.fulfilled .undefV, calls ++ [[e]])

/-- The callback invocations `promise.then(callback).catch(callback)`
performs once the attempt settles with the given outcome.  `Mongod#open` and
`Mongod#close` share this shape; the callback itself is assumed to return
normally. -/
def openWithCallback (o : Settle) : List (List JsArg) :=
  (catchCb (thenCb (promiseOf o, []))).2

/-- The configuration exercising the storage-engine and no-journal options. -/
def c7config : Config :=
  { bin := .vstr "mongod", conf := .vnull, port := .vnum 27017,
    dbpath := .vstr "/data/db", storageEngine := .vstr "inMemory",
    nojournal := .vbool true }


/- ### Theorems -/

/- ### Character facts used by the classifier proofs -/

theorem toNat_inj {a b : Char} (h : a.toNat = b.toNat) : a = b :=
  Char.ext (UInt32.ext h)

/-- `toLower` adds 32 on the upper-case ASCII range and fixes everything
else. -/
theorem lc_spec (c : Char) :
    (65 ≤ c.toNat ∧ c.toNat ≤ 90 ∧ (lc c).toNat = c.toNat + 32) ∨
    ((c.toNat < 65 ∨ 90 < c.toNat) ∧ lc c = c) := by
  unfold lc Char.toLower
  by_cases h : c.toNat ≥ 65 ∧ c.toNat ≤ 90
  · rw [if_pos h]
    refine Or.inl ⟨h.1, h.2, ?_⟩
    have hv : Nat.isValidChar (c.toNat + 32) := Or.inl (by omega)
    rw [Char.ofNat, dif_pos hv]
    simp only [Char.ofNatAux, Char.toNat, UInt32.toNat, BitVec.toNat_ofNatLt]
  · rw [if_neg h]
    exact Or.inr ⟨by omega, rfl⟩

/-- Characters below the upper-case range are fixed by lower-casing. -/
theorem lc_fix {c : Char} (h : c.toNat < 65) : lc c = c := by
  rcases lc_spec c with ⟨h1, -, -⟩ | ⟨-, h2⟩
  · omega
  · exact h2

/-- For a target below code point 65 (space, `=`, digits, control
characters), lower-casing reflects equality. -/
theorem lc_eq_low {c d : Char} (hd : d.toNat < 65) : lc c = d ↔ c = d := by
  rcases lc_spec c with ⟨h1, h2, h3⟩ | ⟨-, h4⟩
  · constructor
    · intro he
      rw [he] at h3
      omega
    · intro he
      subst he
      omega
  · rw [h4]

theorem isDigit_iff (c : Char) : c.isDigit = true ↔ 48 ≤ c.toNat ∧ c.toNat ≤ 57 := by
  unfold Char.isDigit
  rw [Bool.and_eq_true, decide_eq_true_iff, decide_eq_true_iff]
  exact Iff.rfl

theorem isJsWS_toNat {c : Char} (h : isJsWS c = true) : c.toNat < 65 := by
  unfold isJsWS at h
  simp only [Bool.or_eq_true, decide_eq_true_iff] at h
  rcases h with ((((h | h) | h) | h) | h) | h <;> subst h <;> decide

theorem isJsWS_lc (c : Char) : isJsWS (lc c) = isJsWS c := by
  rcases lc_spec c with ⟨h1, h2, h3⟩ | ⟨-, h4⟩
  · have hc : isJsWS c = false := by
      cases hx : isJsWS c
      · rfl
      · exact absurd (isJsWS_toNat hx) (by omega)
    have hl : isJsWS (lc c) = false := by
      cases hx : isJsWS (lc c)
      · rfl
      · exact absurd (isJsWS_toNat hx) (by omega)
    rw [hc, hl]
  · rw [h4]

theorem isDigit_lc (c : Char) : (lc c).isDigit = c.isDigit := by
  rcases lc_spec c with ⟨h1, h2, h3⟩ | ⟨-, h4⟩
  · have hc : c.isDigit = false := by
      cases hx : c.isDigit
      · rfl
      · have := (isDigit_iff c).mp hx
        omega
    have hl : (lc c).isDigit = false := by
      cases hx : (lc c).isDigit
      · rfl
      · have := (isDigit_iff (lc c)).mp hx
        omega
    rw [hc, hl]
  · rw [h4]

/-- Membership in a lower-cased list, upward. -/
theorem lc_mem {c : Char} {m : List Char} (h : c ∈ m) : lc c ∈ lcStr m :=
  List.mem_map_of_mem lc h

/- ### Structure of the `keyRE` alternatives -/

theorem litCI_some {pat : List Char} :
    ∀ {s r : List Char}, litCI pat s = some r →
    ∃ p, s = p ++ r ∧ lcStr p = pat ∧ p.length = pat.length := by
  induction pat with
  | nil =>
    intro s r h
    simp only [litCI, Option.some.injEq] at h
    exact ⟨[], by simp [h], rfl, rfl⟩
  | cons p ps ih =>
    intro s r h
    cases s with
    | nil => simp [litCI] at h
    | cons c cs =>
      simp only [litCI] at h
      by_cases hc : lc c = p
      · rw [if_pos hc] at h
        obtain ⟨q, hq1, hq2, hq3⟩ := ih h
        refine ⟨c :: q, by simp [hq1], ?_, by simp [hq3]⟩
        simp only [lcStr, List.map_cons, hc]
        simp only [lcStr] at hq2
        rw [hq2]
      · rw [if_neg hc] at h
        exact absurd h (by simp)

theorem litCI_pref {pat : List Char} :
    ∀ {s rest : List Char}, lcStr s = pat ++ rest →
    litCI pat s = some (s.drop pat.length) ∧ lcStr (s.drop pat.length) = rest := by
  induction pat with
  | nil =>
    intro s rest h
    exact ⟨rfl, by simpa using h⟩
  | cons p ps ih =>
    intro s rest h
    cases s with
    | nil => simp [lcStr] at h
    | cons c cs =>
      simp only [lcStr, List.map_cons, List.cons_append, List.cons.injEq] at h
      obtain ⟨h1, h2⟩ := h
      simp only [litCI, if_pos h1, List.length_cons, List.drop_succ_cons]
      exact ih h2

theorem takeWS_split (s : List Char) :
    ∃ w, s = w ++ (takeWS s).2 ∧ w.length = (takeWS s).1 ∧ ∀ c ∈ w, isJsWS c = true := by
  induction s with
  | nil => exact ⟨[], rfl, rfl, by simp⟩
  | cons c cs ih =>
    by_cases hc : isJsWS c = true
    · obtain ⟨w, h1, h2, h3⟩ := ih
      refine ⟨c :: w, ?_, ?_, ?_⟩
      · simp only [takeWS, hc, if_true, List.cons_append]
        rw [← h1]
      · simp only [takeWS, hc, if_true, List.length_cons, h2]
      · intro x hx
        rcases List.mem_cons.mp hx with hx | hx
        · rw [hx]; exact hc
        · exact h3 x hx
    · have hc2 : isJsWS c = false := by simpa using hc
      exact ⟨[], by simp [takeWS, hc2], by simp [takeWS, hc2], by simp⟩

theorem takeWS_exact {w r : List Char} (hw : ∀ c ∈ w, isJsWS c = true)
    (hr : ∀ c, r.head? = some c → isJsWS c = false) :
    takeWS (w ++ r) = (w.length, r) := by
  induction w with
  | nil =>
    cases r with
    | nil => rfl
    | cons c cs =>
      have := hr c rfl
      simp [takeWS, this]
  | cons c w ih =>
    have hc := hw c (by simp)
    have := ih (fun x hx => hw x (by simp [hx]))
    simp [takeWS, hc, this]

theorem takeDigits_split (s : List Char) :
    ∃ d, s = d ++ (takeDigits s).2 ∧ d.length = (takeDigits s).1 ∧
      ∀ c ∈ d, c.isDigit = true := by
  induction s with
  | nil => exact ⟨[], rfl, rfl, by simp⟩
  | cons c cs ih =>
    by_cases hc : c.isDigit = true
    · obtain ⟨w, h1, h2, h3⟩ := ih
      refine ⟨c :: w, ?_, ?_, ?_⟩
      · simp only [takeDigits, hc, if_true, List.cons_append]
        rw [← h1]
      · simp only [takeDigits, hc, if_true, List.length_cons, h2]
      · intro x hx
        rcases List.mem_cons.mp hx with hx | hx
        · rw [hx]; exact hc
        · exact h3 x hx
    · have hc2 : c.isDigit = false := by simpa using hc
      exact ⟨[], by simp [takeDigits, hc2], by simp [takeDigits, hc2], by simp⟩

theorem numAlt_some {pat s r : List Char} (h : numAlt pat s = some r) :
    ∃ p d, s = (p ++ d) ++ r ∧ lcStr p = pat ∧ p.length = pat.length ∧
      d ≠ [] ∧ ∀ c ∈ d, c.isDigit = true := by
  cases hl : litCI pat s with
  | none => simp [numAlt, hl] at h
  | some s1 =>
    simp only [numAlt, hl] at h
    by_cases hz : (takeDigits s1).1 = 0
    · rw [if_pos hz] at h
      exact absurd h (by simp)
    · rw [if_neg hz] at h
      simp only [Option.some.injEq] at h
      obtain ⟨p, hp1, hp2, hp3⟩ := litCI_some hl
      obtain ⟨d, hd1, hd2, hd3⟩ := takeDigits_split s1
      refine ⟨p, d, ?_, hp2, hp3, ?_, hd3⟩
      · rw [hp1, hd1, ← h]
        simp
      · intro hde
        rw [hde] at hd2
        simp at hd2
        omega

theorem phraseAlt_some {w1 w2 w3 s r : List Char} (h : phraseAlt w1 w2 w3 s = some r) :
    ∃ p1 a p2 b p3, s = (p1 ++ a ++ p2 ++ b ++ p3) ++ r ∧
      lcStr p1 = w1 ∧ lcStr p2 = w2 ∧ lcStr p3 = w3 ∧
      p1.length = w1.length ∧
      a ≠ [] ∧ b ≠ [] ∧ (∀ c ∈ a, isJsWS c = true) ∧ ∀ c ∈ b, isJsWS c = true := by
  cases h1 : litCI w1 s with
  | none => simp [phraseAlt, h1] at h
  | some s1 =>
    simp only [phraseAlt, h1] at h
    by_cases hz1 : (takeWS s1).1 = 0
    · rw [if_pos hz1] at h
      exact absurd h (by simp)
    · rw [if_neg hz1] at h
      cases h2 : litCI w2 (takeWS s1).2 with
      | none =>
        rw [h2] at h
        simp at h
      | some s2 =>
        rw [h2] at h
        simp only [] at h
        by_cases hz2 : (takeWS s2).1 = 0
        · rw [if_pos hz2] at h
          exact absurd h (by simp)
        · rw [if_neg hz2] at h
          obtain ⟨p1, hp11, hp12, hp13⟩ := litCI_some h1
          obtain ⟨a, ha1, ha2, ha3⟩ := takeWS_split s1
          obtain ⟨p2, hp21, hp22, hp23⟩ := litCI_some h2
          obtain ⟨b, hb1, hb2, hb3⟩ := takeWS_split s2
          obtain ⟨p3, hp31, hp32, hp33⟩ := litCI_some h
          refine ⟨p1, a, p2, b, p3, ?_, hp12, hp22, hp32, hp13, ?_, ?_, ha3, hb3⟩
          · rw [hp11, ha1, hp21, hb1, hp31]
            simp
          · intro hae
            rw [hae] at ha2
            simp at ha2
            omega
          · intro hbe
            rw [hbe] at hb2
            simp at hb2
            omega

theorem errTok_some {s r : List Char} (h : errTok s = some r) :
    (∃ p, s = p ++ r ∧ lcStr p = "error".data) ∨
      (∃ p, s = p ++ r ∧ lcStr p = "exception".data) ∨
      ∃ p, s = p ++ r ∧ lcStr p = "badvalue".data := by
  cases h1 : litCI "error".data s with
  | some r1 =>
    simp only [errTok, h1, Option.some.injEq] at h
    obtain ⟨p, hp1, hp2, -⟩ := litCI_some h1
    exact Or.inl ⟨p, h ▸ hp1, hp2⟩
  | none =>
    cases h2 : litCI "exception".data s with
    | some r2 =>
      simp only [errTok, h1, h2, Option.some.injEq] at h
      obtain ⟨p, hp1, hp2, -⟩ := litCI_some h2
      exact Or.inr (Or.inl ⟨p, h ▸ hp1, hp2⟩)
    | none =>
      simp only [errTok, h1, h2] at h
      obtain ⟨p, hp1, hp2, -⟩ := litCI_some h
      exact Or.inr (Or.inr ⟨p, hp1, hp2⟩)

theorem take_consumed {s P r : List Char} {n : Nat} (hs : s = P ++ r)
    (hn : n = s.length - r.length) : n = P.length ∧ s.take n = P := by
  subst hs
  subst hn
  refine ⟨by simp, ?_⟩
  rw [show (P ++ r).length - r.length = P.length by simp]
  exact List.take_left P r

/-- Members of a lower-cased image are lower-cased members. -/
theorem mem_lcStr {x : Char} {m : List Char} (h : x ∈ lcStr m) :
    ∃ c ∈ m, x = lc c := by
  obtain ⟨c, hc, he⟩ := List.mem_map.mp h
  exact ⟨c, hc, he.symm⟩

theorem matchAt_some {s : List Char} {n : Nat} (h : matchAt s = some n) :
    1 ≤ n ∧ n ≤ s.length ∧ MatchShape (s.take n) := by
  have digitsShape : ∀ {pat p d : List Char}, lcStr p = pat →
      d ≠ [] → (∀ c ∈ d, c.isDigit = true) → NumShape pat (p ++ d) := by
    intro pat p d hp hd hdig
    simp only [lcStr] at hp
    refine ⟨lcStr d, by simp [lcStr, hp], by simpa [lcStr] using hd, ?_⟩
    intro x hx
    obtain ⟨c, hc, he⟩ := mem_lcStr hx
    rw [he, isDigit_lc]
    exact hdig c hc
  have wsLc : ∀ {w : List Char}, w ≠ [] → (∀ c ∈ w, isJsWS c = true) →
      WSRun (lcStr w) := by
    intro w hw hws
    refine ⟨by simpa [lcStr] using hw, ?_⟩
    intro x hx
    obtain ⟨c, hc, he⟩ := mem_lcStr hx
    rw [he, isJsWS_lc]
    exact hws c hc
  unfold matchAt at h
  cases h1 : numAlt "pid=".data s with
  | some r =>
    rw [h1] at h
    simp only [Option.some.injEq] at h
    obtain ⟨p, d, hs, hp, hpl, hd, hdig⟩ := numAlt_some h1
    obtain ⟨hn, ht⟩ := take_consumed hs h.symm
    refine ⟨?_, ?_, Or.inl (ht ▸ digitsShape hp hd hdig)⟩
    · rw [hn]
      have h4 : p.length = 4 := by rw [hpl]; rfl
      simp only [List.length_append, h4]
      omega
    · rw [hs, hn]
      simp
  | none =>
    rw [h1] at h
    cases h2 : numAlt "port=".data s with
    | some r =>
      rw [h2] at h
      simp only [Option.some.injEq] at h
      obtain ⟨p, d, hs, hp, hpl, hd, hdig⟩ := numAlt_some h2
      obtain ⟨hn, ht⟩ := take_consumed hs h.symm
      refine ⟨?_, ?_, Or.inr (Or.inl (ht ▸ digitsShape hp hd hdig))⟩
      · rw [hn]
        have h5 : p.length = 5 := by rw [hpl]; rfl
        simp only [List.length_append, h5]
        omega
      · rw [hs, hn]
        simp
    | none =>
      rw [h2] at h
      cases h3 : phraseAlt "waiting".data "for".data "connections".data s with
      | some r =>
        rw [h3] at h
        simp only [Option.some.injEq] at h
        obtain ⟨p1, a, p2, b, p3, hs, hp1, hp2, hp3, hl1, ha, hb, haw, hbw⟩ :=
          phraseAlt_some h3
        obtain ⟨hn, ht⟩ := take_consumed hs h.symm
        refine ⟨?_, ?_, Or.inr (Or.inr (Or.inl ⟨lcStr a, lcStr b,
          wsLc ha haw, wsLc hb hbw, ?_⟩))⟩
        · rw [hn]
          have h7 : p1.length = 7 := by rw [hl1]; rfl
          simp only [List.length_append, h7]
          omega
        · rw [hs, hn]
          simp
        · rw [ht]
          simp only [lcStr] at hp1 hp2 hp3 ⊢
          simp [hp1, hp2, hp3]
      | none =>
        rw [h3] at h
        cases h4 : phraseAlt "already".data "in".data "use".data s with
        | some r =>
          rw [h4] at h
          simp only [Option.some.injEq] at h
          obtain ⟨p1, a, p2, b, p3, hs, hp1, hp2, hp3, hl1, ha, hb, haw, hbw⟩ :=
            phraseAlt_some h4
          obtain ⟨hn, ht⟩ := take_consumed hs h.symm
          refine ⟨?_, ?_, Or.inr (Or.inr (Or.inr (Or.inl ⟨lcStr a, lcStr b,
            wsLc ha haw, wsLc hb hbw, ?_⟩)))⟩
          · rw [hn]
            have h7 : p1.length = 7 := by rw [hl1]; rfl
            simp only [List.length_append, h7]
            omega
          · rw [hs, hn]
            simp
          · rw [ht]
            simp only [lcStr] at hp1 hp2 hp3 ⊢
            simp [hp1, hp2, hp3]
        | none =>
          rw [h4] at h
          cases h5 : phraseAlt "denied".data "for".data "socket".data s with
          | some r =>
            rw [h5] at h
            simp only [Option.some.injEq] at h
            obtain ⟨p1, a, p2, b, p3, hs, hp1, hp2, hp3, hl1, ha, hb, haw, hbw⟩ :=
              phraseAlt_some h5
            obtain ⟨hn, ht⟩ := take_consumed hs h.symm
            refine ⟨?_, ?_, Or.inr (Or.inr (Or.inr (Or.inr (Or.inl ⟨lcStr a, lcStr b,
              wsLc ha haw, wsLc hb hbw, ?_⟩))))⟩
            · rw [hn]
              have h6 : p1.length = 6 := by rw [hl1]; rfl
              simp only [List.length_append, h6]
              omega
            · rw [hs, hn]
              simp
            · rw [ht]
              simp only [lcStr] at hp1 hp2 hp3 ⊢
              simp [hp1, hp2, hp3]
          | none =>
            rw [h5] at h
            cases h6 : errTok s with
            | none =>
              rw [h6] at h
              exact absurd h (by simp)
            | some r =>
              rw [h6] at h
              simp only [Option.some.injEq] at h
              have hts : s.take n = s := by rw [← h]; exact List.take_length s
              have hlen : 5 ≤ s.length := by
                rcases errTok_some h6 with ⟨p, hp1, hp2⟩ | ⟨p, hp1, hp2⟩ | ⟨p, hp1, hp2⟩ <;>
                · have : p.length = (lcStr p).length := by simp [lcStr]
                  rw [hp1]
                  rw [hp2] at this
                  simp only [List.length_append]
                  simp at this
                  omega
              refine ⟨by omega, by omega, Or.inr (Or.inr (Or.inr (Or.inr (Or.inr ?_))))⟩
              rw [hts]
              rcases errTok_some h6 with ⟨p, hp1, hp2⟩ | ⟨p, hp1, hp2⟩ | ⟨p, hp1, hp2⟩
              all_goals simp only [lcStr] at hp2
              · exact Or.inl ⟨lcStr r, by rw [hp1]; simp [lcStr, hp2]⟩
              · exact Or.inr (Or.inl ⟨lcStr r, by rw [hp1]; simp [lcStr, hp2]⟩)
              · exact Or.inr (Or.inr ⟨lcStr r, by rw [hp1]; simp [lcStr, hp2]⟩)

theorem scanFuel_mem :
    ∀ (fuel : Nat) {s m : List Char}, s.length ≤ fuel → m ∈ scanFuel fuel s →
    ∃ a b, s = a ++ m ++ b ∧ matchAt (m ++ b) = some m.length := by
  intro fuel
  induction fuel with
  | zero =>
    intro s m _ hm
    simp [scanFuel] at hm
  | succ f ih =>
    intro s m hle hm
    cases s with
    | nil => simp [scanFuel] at hm
    | cons c rest =>
      simp only [scanFuel] at hm
      cases hma : matchAt (c :: rest) with
      | some n =>
        rw [hma] at hm
        obtain ⟨h1, h2, -⟩ := matchAt_some hma
        rcases List.mem_cons.mp hm with hm | hm
        · subst hm
          refine ⟨[], (c :: rest).drop n, by simp, ?_⟩
          rw [List.take_append_drop, hma]
          congr 1
          simp only [List.length_cons] at h2
          simp only [List.length_take, List.length_cons]
          omega
        · have hlen : ((c :: rest).drop n).length ≤ f := by
            simp only [List.length_drop]
            simp only [List.length_cons] at hle ⊢
            omega
          obtain ⟨a, b, hab, hmb⟩ := ih hlen hm
          refine ⟨(c :: rest).take n ++ a, b, ?_, hmb⟩
          conv_lhs => rw [← List.take_append_drop n (c :: rest), hab]
          simp [List.append_assoc]
      | none =>
        rw [hma] at hm
        have hlen : rest.length ≤ f := by
          simp only [List.length_cons] at hle
          omega
        obtain ⟨a, b, hab, hmb⟩ := ih hlen hm
        exact ⟨c :: a, b, by simp [hab, List.append_assoc], hmb⟩

/-- Every match found by the scan has one of the alternative shapes and is a
substring of the scanned line. -/
theorem jsMatchAll_shape {s m : List Char} (h : m ∈ jsMatchAll s) :
    MatchShape m ∧ ∃ a b, s = a ++ m ++ b := by
  obtain ⟨a, b, hab, hmb⟩ := scanFuel_mem s.length (Nat.le_refl _) h
  obtain ⟨-, -, hshape⟩ := matchAt_some hmb
  rw [List.take_left] at hshape
  exact ⟨hshape, a, b, hab⟩

/- ### Occurrence predicates -/

theorem containsCI_spec {pat : List Char} :
    ∀ {s : List Char}, containsCI pat s = true → ∃ a b, lcStr s = a ++ pat ++ b := by
  intro s
  induction s with
  | nil =>
    intro h
    simp only [containsCI] at h
    cases hl : litCI pat [] with
    | none =>
      rw [hl] at h
      simp at h
    | some r =>
      obtain ⟨p, hp1, hp2, -⟩ := litCI_some hl
      have hp : p = [] := by
        cases p with
        | nil => rfl
        | cons x xs => simp at hp1
      refine ⟨[], [], ?_⟩
      rw [hp] at hp2
      simp [lcStr, ← hp2]
  | cons c cs ih =>
    intro h
    simp only [containsCI, Bool.or_eq_true] at h
    rcases h with h | h
    · obtain ⟨r, hr⟩ := Option.isSome_iff_exists.mp h
      obtain ⟨p, hp1, hp2, -⟩ := litCI_some hr
      refine ⟨[], lcStr r, ?_⟩
      rw [hp1]
      simp only [lcStr, List.map_append, List.nil_append]
      simp only [lcStr] at hp2
      rw [hp2]
    · obtain ⟨a, b, hab⟩ := ih h
      exact ⟨lc c :: a, b, by simp [lcStr, List.map_cons]; simpa [lcStr] using hab⟩

theorem containsCI_of {pat : List Char} :
    ∀ {s a b : List Char}, lcStr s = a ++ pat ++ b → containsCI pat s = true := by
  intro s
  induction s with
  | nil =>
    intro a b h
    have : a = [] ∧ pat = [] := by
      simp only [lcStr, List.map_nil] at h
      constructor
      · cases a with
        | nil => rfl
        | cons x xs => simp at h
      · cases a <;> cases pat <;> simp_all
    simp [containsCI, this.2, litCI]
  | cons c cs ih =>
    intro a b h
    cases a with
    | nil =>
      simp only [List.nil_append] at h
      have := (litCI_pref h).1
      simp [containsCI, this]
    | cons x a2 =>
      simp only [lcStr, List.map_cons, List.cons_append, List.cons.injEq] at h
      have := ih (a := a2) (b := b) h.2
      simp [containsCI, this]

/-- Lift a case-insensitive containment through an enclosing string. -/
theorem containsCI_infix {pat m x y : List Char} (hm : containsCI pat m = true) :
    containsCI pat (x ++ m ++ y) = true := by
  obtain ⟨a, b, hab⟩ := containsCI_spec hm
  refine containsCI_of (a := lcStr x ++ a) (b := b ++ lcStr y) ?_
  simp only [lcStr, List.map_append, hab]
  simp [lcStr] at hab
  simp [hab, List.append_assoc]

theorem containsSpaced_suffix {w1 w2 w3 : List Char} :
    ∀ {x y : List Char}, (phraseAlt w1 w2 w3 y).isSome = true →
    containsSpaced w1 w2 w3 (x ++ y) = true := by
  intro x
  induction x with
  | nil =>
    intro y h
    cases y with
    | nil => simpa [containsSpaced] using h
    | cons c cs => simp [containsSpaced, h]
  | cons c x2 ih =>
    intro y h
    simp [containsSpaced, ih h]

theorem litCI_append {pat p X : List Char} (hp : lcStr p = pat) :
    litCI pat (p ++ X) = some X := by
  have hpre : lcStr (p ++ X) = pat ++ lcStr X := by
    simp only [lcStr, List.map_append]
    simp only [lcStr] at hp
    rw [hp]
  have h := (litCI_pref hpre).1
  have hlen : pat.length = p.length := by
    rw [← hp]
    simp [lcStr]
  rw [h, hlen, List.drop_left]

/-- Whitespace in the image is whitespace in the original. -/
theorem ws_raw {w : List Char} (h : ∀ x ∈ lcStr w, isJsWS x = true) :
    ∀ c ∈ w, isJsWS c = true := by
  intro c hc
  have := h (lc c) (lc_mem hc)
  rwa [isJsWS_lc] at this

/-- A `PhraseShape` match succeeds as a `phraseAlt` even with junk appended,
provided the second and third words do not start with whitespace. -/
theorem phraseAlt_of_shape {w1 w2 w3 m X : List Char}
    (h : PhraseShape w1 w2 w3 m)
    (h2ne : w2 ≠ []) (h3ne : w3 ≠ [])
    (hh2 : ∀ c, w2.head? = some c → isJsWS c = false)
    (hh3 : ∀ c, w3.head? = some c → isJsWS c = false) :
    (phraseAlt w1 w2 w3 (m ++ X)).isSome = true := by
  obtain ⟨a, b, ⟨hane, haws⟩, ⟨hbne, hbws⟩, hm⟩ := h
  have hm2 : List.map lc m = w1 ++ (a ++ (w2 ++ (b ++ w3))) := by
    simp only [lcStr] at hm
    rw [hm]
    simp [List.append_assoc]
  obtain ⟨p1, rest1, hmE1, hp1, hr1⟩ := List.map_eq_append_iff.mp hm2
  obtain ⟨ra, rest2, hmE2, hra, hr2⟩ := List.map_eq_append_iff.mp hr1
  obtain ⟨p2, rest3, hmE3, hp2, hr3⟩ := List.map_eq_append_iff.mp hr2
  obtain ⟨rb, p3, hmE4, hrb, hp3⟩ := List.map_eq_append_iff.mp hr3
  subst hmE1 hmE2 hmE3 hmE4
  have hraws : ∀ c ∈ ra, isJsWS c = true :=
    ws_raw (by simp only [lcStr]; rw [hra]; exact haws)
  have hrbws : ∀ c ∈ rb, isJsWS c = true :=
    ws_raw (by simp only [lcStr]; rw [hrb]; exact hbws)
  have hrane : ra ≠ [] := by
    intro he
    rw [he] at hra
    exact hane (by simp [← hra])
  have hrbne : rb ≠ [] := by
    intro he
    rw [he] at hrb
    exact hbne (by simp [← hrb])
  have hp2ne : p2 ≠ [] := by
    intro he
    rw [he] at hp2
    exact h2ne (by simp [← hp2])
  have hp3ne : p3 ≠ [] := by
    intro he
    rw [he] at hp3
    exact h3ne (by simp [← hp3])
  have hstep1 : litCI w1 ((p1 ++ (ra ++ (p2 ++ (rb ++ p3)))) ++ X) =
      some (ra ++ (p2 ++ (rb ++ p3)) ++ X) := by
    rw [show (p1 ++ (ra ++ (p2 ++ (rb ++ p3)))) ++ X =
      p1 ++ ((ra ++ (p2 ++ (rb ++ p3))) ++ X) by simp [List.append_assoc]]
    exact litCI_append hp1
  have hhead2 : ∀ c, (p2 ++ (rb ++ p3) ++ X).head? = some c → isJsWS c = false := by
    intro c hc
    cases p2 with
    | nil => exact absurd rfl hp2ne
    | cons q qs =>
      simp only [List.cons_append, List.head?_cons, Option.some.injEq] at hc
      subst hc
      have hhd : (List.map lc (q :: qs)).head? = some (lc q) := by simp
      rw [hp2] at hhd
      have hw2 := hh2 (lc q) hhd
      rw [← isJsWS_lc]
      exact hw2
  have hstep2 : takeWS (ra ++ (p2 ++ (rb ++ p3)) ++ X) = (ra.length, p2 ++ (rb ++ p3) ++ X) := by
    rw [show ra ++ (p2 ++ (rb ++ p3)) ++ X = ra ++ (p2 ++ (rb ++ p3) ++ X) by
      simp [List.append_assoc]]
    exact takeWS_exact hraws hhead2
  have hstep3 : litCI w2 (p2 ++ (rb ++ p3) ++ X) = some ((rb ++ p3) ++ X) := by
    rw [show p2 ++ (rb ++ p3) ++ X = p2 ++ ((rb ++ p3) ++ X) by simp [List.append_assoc]]
    exact litCI_append hp2
  have hhead3 : ∀ c, (p3 ++ X).head? = some c → isJsWS c = false := by
    intro c hc
    cases p3 with
    | nil => exact absurd rfl hp3ne
    | cons q qs =>
      simp only [List.cons_append, List.head?_cons, Option.some.injEq] at hc
      subst hc
      have hhd : (List.map lc (q :: qs)).head? = some (lc q) := by simp
      rw [hp3] at hhd
      have hw3 := hh3 (lc q) hhd
      rw [← isJsWS_lc]
      exact hw3
  have hstep4 : takeWS ((rb ++ p3) ++ X) = (rb.length, p3 ++ X) := by
    rw [show (rb ++ p3) ++ X = rb ++ (p3 ++ X) by simp [List.append_assoc]]
    exact takeWS_exact hrbws hhead3
  have hstep5 : litCI w3 (p3 ++ X) = some X := litCI_append hp3
  have hralen : ra.length ≠ 0 := by
    intro he
    exact hrane (List.eq_nil_of_length_eq_zero he)
  have hrblen : rb.length ≠ 0 := by
    intro he
    exact hrbne (List.eq_nil_of_length_eq_zero he)
  simp only [phraseAlt, hstep1, hstep2, if_neg hralen, hstep3, hstep4, if_neg hrblen,
    hstep5, Option.isSome_some]

/- ### The classification `matchHandler` gives each match shape -/

theorem lc_eq_mem {m : List Char} {d : Char} (hd : d.toNat < 65) :
    d ∈ lcStr m ↔ d ∈ m := by
  constructor
  · intro h
    obtain ⟨c, hc, he⟩ := mem_lcStr h
    rwa [(lc_eq_low hd).mp he.symm] at hc
  · intro h
    have := lc_mem (m := m) h
    rwa [lc_fix hd] at this

theorem beforeEq_lc (m : List Char) : beforeEq (lcStr m) = lcStr (beforeEq m) := by
  induction m with
  | nil => rfl
  | cons c cs ih =>
    simp only [lcStr, List.map_cons, beforeEq]
    by_cases hc : c = '='
    · rw [if_pos hc, if_pos ((lc_eq_low (by decide)).mpr hc)]
      rfl
    · rw [if_neg hc, if_neg (fun hlc => hc ((lc_eq_low (by decide)).mp hlc))]
      simp only [lcStr] at ih
      simp [ih]

theorem filter_space_lc (m : List Char) :
    (lcStr m).filter (fun c => decide (c ≠ ' ')) =
      lcStr (m.filter (fun c => decide (c ≠ ' '))) := by
  induction m with
  | nil => rfl
  | cons c cs ih =>
    simp only [lcStr, List.map_cons, List.filter]
    by_cases hc : c = ' '
    · subst hc
      rw [show (decide (lc ' ' ≠ ' ')) = false by decide,
        show (decide (' ' ≠ ' ')) = false by decide]
      exact ih
    · rw [show (decide (lc c ≠ ' ')) = true by
        simp only [decide_eq_true_iff]
        exact fun hlc => hc ((lc_eq_low (by decide)).mp hlc),
        show (decide (c ≠ ' ')) = true by simpa using hc]
      simp only [lcStr] at ih
      simp only [List.map_cons]
      exact congrArg (List.cons (lc c)) ih

/-- The handler key `k` computed from a match, expressed over the match's
lower-cased image. -/
theorem k_eq (m : List Char) :
    lcStr ((beforeEq m).filter (fun c => decide (c ≠ ' '))) =
      (beforeEq (lcStr m)).filter (fun c => decide (c ≠ ' ')) := by
  rw [beforeEq_lc, filter_space_lc]

theorem beforeEq_split {v : List Char} :
    ∀ {u : List Char}, '=' ∉ u → beforeEq (u ++ '=' :: v) = u := by
  intro u
  induction u with
  | nil =>
    intro h
    simp [beforeEq]
  | cons c cs ih =>
    intro h
    have hc : c ≠ '=' := fun hc => h (by simp [hc])
    have hstep : (c :: cs) ++ '=' :: v = c :: (cs ++ '=' :: v) := rfl
    rw [hstep]
    simp only [beforeEq, if_neg hc]
    exact congrArg (List.cons c) (ih (fun hm => h (List.mem_cons_of_mem _ hm)))

theorem beforeEq_no_eq {m : List Char} (h : '=' ∉ m) : beforeEq m = m := by
  induction m with
  | nil => rfl
  | cons c cs ih =>
    have hc : c ≠ '=' := fun he => h (by simp [he])
    simp only [beforeEq, if_neg hc]
    exact congrArg (List.cons c) (ih fun hm => h (List.mem_cons_of_mem _ hm))

theorem containsCI_false {pat m : List Char} {x : Char}
    (hx : x ∈ pat) (hnx : x ∉ lcStr m) : containsCI pat m = false := by
  cases hcm : containsCI pat m with
  | false => rfl
  | true =>
    obtain ⟨a, b, hab⟩ := containsCI_spec hcm
    refine absurd ?_ hnx
    simp only [lcStr] at hab ⊢
    rw [hab]
    simp [hx]

theorem litCI_cons_ne {p : Char} {ps m : List Char} {x : Char}
    (hhd : (lcStr m).head? = some x) (hx : x ≠ p) :
    litCI (p :: ps) m = none := by
  cases m with
  | nil => simp [lcStr] at hhd
  | cons c cs =>
    have hc : lc c = x := by simpa [lcStr] using hhd
    simp [litCI, hc ▸ hx]

theorem containsCI_head {pat m : List Char} (h : (litCI pat m).isSome = true) :
    containsCI pat m = true := by
  cases m with
  | nil => simpa [containsCI] using h
  | cons c cs => simp [containsCI, h]

theorem filter_ws_cases {w : List Char} (h : ∀ c ∈ w, isJsWS c = true) :
    w.filter (fun c => decide (c ≠ ' ')) = [] ∨
      ∃ x ∈ w.filter (fun c => decide (c ≠ ' ')), isJsWS x = true ∧ x ≠ ' ' := by
  cases hf : w.filter (fun c => decide (c ≠ ' ')) with
  | nil => exact Or.inl rfl
  | cons x xs =>
    have hxm : x ∈ w.filter (fun c => decide (c ≠ ' ')) := by
      rw [hf]
      simp
    refine Or.inr ⟨x, ?_, h x (List.mem_of_mem_filter hxm), ?_⟩
    · simp [hf]
    · simpa using List.of_mem_filter hxm

/-- A whitespace character other than the plain space occurs in none of the
handler keys or key words. -/
theorem ws_notin {x : Char} (h1 : isJsWS x = true) (h2 : x ≠ ' ')
    {key : List Char}
    (hkey : '\t' ∉ key ∧ '\n' ∉ key ∧ '\r' ∉ key ∧ '\x0b' ∉ key ∧ '\x0c' ∉ key) :
    x ∉ key := by
  unfold isJsWS at h1
  simp only [Bool.or_eq_true, decide_eq_true_iff] at h1
  rcases h1 with ((((h | h) | h) | h) | h) | h
  · exact absurd h h2
  · exact h ▸ hkey.1
  · exact h ▸ hkey.2.1
  · exact h ▸ hkey.2.2.1
  · exact h ▸ hkey.2.2.2.1
  · exact h ▸ hkey.2.2.2.2

theorem classifyMatch_pid {m : List Char} (h : NumShape "pid=".data m) :
    ∃ n, classifyMatch m = some (.pid n) := by
  obtain ⟨d, hd, hdne, hdig⟩ := h
  have hhd : (lcStr m).head? = some 'p' := by
    rw [hd]
    rfl
  have hxd : ∀ x : Char, x.isDigit = false → x ∉ "pid=".data → x ∉ lcStr m := by
    intro x hx1 hx2 hmem
    rw [hd] at hmem
    rcases List.mem_append.mp hmem with hm | hm
    · exact hx2 hm
    · rw [hdig x hm] at hx1
      cases hx1
  have h1 : litCI "error".data m = none := litCI_cons_ne hhd (by decide)
  have h2 : containsCI "exception".data m = false :=
    containsCI_false (by decide) (hxd 'x' (by decide) (by decide))
  have h3 : containsCI "badvalue".data m = false :=
    containsCI_false (by decide) (hxd 'b' (by decide) (by decide))
  have herr : errorTest m = false := by
    simp [errorTest, h1, h2, h3]
  have hkv : lcStr ((beforeEq m).filter (fun c => decide (c ≠ ' '))) = "pid".data := by
    rw [k_eq, hd, show ("pid=".data ++ d) = "pid".data ++ '=' :: d from rfl,
      beforeEq_split (by decide)]
    decide
  unfold classifyMatch
  rw [if_neg (by simp [herr])]
  simp only [hkv]
  rw [if_neg (by decide), if_neg (by decide), if_neg (by decide)]
  exact ⟨digitsVal ((afterEq m).getD []), by rw [if_pos trivial]⟩

theorem classifyMatch_port {m : List Char} (h : NumShape "port=".data m) :
    ∃ n, classifyMatch m = some (.port n) := by
  obtain ⟨d, hd, hdne, hdig⟩ := h
  have hhd : (lcStr m).head? = some 'p' := by
    rw [hd]
    rfl
  have hxd : ∀ x : Char, x.isDigit = false → x ∉ "port=".data → x ∉ lcStr m := by
    intro x hx1 hx2 hmem
    rw [hd] at hmem
    rcases List.mem_append.mp hmem with hm | hm
    · exact hx2 hm
    · rw [hdig x hm] at hx1
      cases hx1
  have h1 : litCI "error".data m = none := litCI_cons_ne hhd (by decide)
  have h2 : containsCI "exception".data m = false :=
    containsCI_false (by decide) (hxd 'x' (by decide) (by decide))
  have h3 : containsCI "badvalue".data m = false :=
    containsCI_false (by decide) (hxd 'b' (by decide) (by decide))
  have herr : errorTest m = false := by
    simp [errorTest, h1, h2, h3]
  have hkv : lcStr ((beforeEq m).filter (fun c => decide (c ≠ ' '))) = "port".data := by
    rw [k_eq, hd, show ("port=".data ++ d) = "port".data ++ '=' :: d from rfl,
      beforeEq_split (by decide)]
    decide
  unfold classifyMatch
  rw [if_neg (by simp [herr])]
  simp only [hkv]
  rw [if_neg (by decide), if_neg (by decide), if_neg (by decide), if_neg (by decide)]
  exact ⟨digitsVal ((afterEq m).getD []), by rw [if_pos trivial]⟩

theorem errShape_errorTest {m : List Char} (h : ErrShape m) : errorTest m = true := by
  rcases h with ⟨r, hr⟩ | ⟨r, hr⟩ | ⟨r, hr⟩
  · have := (litCI_pref hr).1
    simp [errorTest, this]
  · have h2 : containsCI "exception".data m = true := containsCI_head
      (by simp [(litCI_pref hr).1])
    simp [errorTest, h2]
  · have h3 : containsCI "badvalue".data m = true := containsCI_head
      (by simp [(litCI_pref hr).1])
    simp [errorTest, h3]

theorem classifyMatch_errshape {m : List Char} (h : ErrShape m) :
    classifyMatch m = some (.err (-1) (jsTrim m)) := by
  have herr : errorTest m = true := errShape_errorTest h
  unfold classifyMatch
  rw [if_pos (by simp [herr])]

theorem phrase_notin {w1 w2 w3 a b m : List Char}
    (hm : lcStr m = w1 ++ a ++ w2 ++ b ++ w3)
    (ha : ∀ c ∈ a, isJsWS c = true) (hb : ∀ c ∈ b, isJsWS c = true)
    {x : Char} (hx1 : x ∉ w1) (hx2 : x ∉ w2) (hx3 : x ∉ w3)
    (hxw : isJsWS x = false) : x ∉ lcStr m := by
  intro hmem
  rw [hm] at hmem
  simp only [List.mem_append] at hmem
  rcases hmem with (((h | h) | h) | h) | h
  · exact hx1 h
  · rw [ha x h] at hxw
    cases hxw
  · exact hx2 h
  · rw [hb x h] at hxw
    cases hxw
  · exact hx3 h

/-- When the key `k` retains a non-space whitespace character (the `/ /g`
replace removes only plain spaces), no `switch` arm matches and the handler
returns nothing. -/
theorem classifyMatch_none_of_ws {m : List Char} {x : Char}
    (herr : errorTest m = false)
    (hx : x ∈ lcStr ((beforeEq m).filter (fun c => decide (c ≠ ' '))))
    (hxw : isJsWS x = true) (hxs : x ≠ ' ') :
    classifyMatch m = none := by
  have hne : ∀ key : List Char,
      '\t' ∉ key ∧ '\n' ∉ key ∧ '\r' ∉ key ∧ '\x0b' ∉ key ∧ '\x0c' ∉ key →
      lcStr ((beforeEq m).filter (fun c => decide (c ≠ ' '))) ≠ key := by
    intro key hkey he
    exact ws_notin hxw hxs hkey (he ▸ hx)
  simp only [classifyMatch, herr, Bool.false_eq_true, if_false,
    if_neg (hne "error".data (by decide)),
    if_neg (hne "alreadyinuse".data (by decide)),
    if_neg (hne "deniedforsocket".data (by decide)),
    if_neg (hne "pid".data (by decide)),
    if_neg (hne "port".data (by decide)),
    if_neg (hne "waitingforconnections".data (by decide))]

theorem classifyMatch_waiting {m : List Char}
    (h : PhraseShape "waiting".data "for".data "connections".data m) :
    classifyMatch m = some .ready ∨ classifyMatch m = none := by
  obtain ⟨a, b, ⟨hane, haws⟩, ⟨hbne, hbws⟩, hm⟩ := h
  have hhd : (lcStr m).head? = some 'w' := by
    rw [hm]
    rfl
  have h1 : litCI "error".data m = none := litCI_cons_ne hhd (by decide)
  have h2 : containsCI "exception".data m = false :=
    containsCI_false (x := 'x') (by decide)
      (phrase_notin (x := 'x') hm haws hbws (by decide) (by decide) (by decide) (by decide))
  have h3 : containsCI "badvalue".data m = false :=
    containsCI_false (x := 'b') (by decide)
      (phrase_notin (x := 'b') hm haws hbws (by decide) (by decide) (by decide) (by decide))
  have herr : errorTest m = false := by
    simp [errorTest, h1, h2, h3]
  have hneq : '=' ∉ lcStr m :=
    phrase_notin (x := '=') hm haws hbws (by decide) (by decide) (by decide) (by decide)
  have hk0 : lcStr ((beforeEq m).filter (fun c => decide (c ≠ ' '))) =
      "waiting".data ++ a.filter (fun c => decide (c ≠ ' ')) ++ "for".data ++
        b.filter (fun c => decide (c ≠ ' ')) ++ "connections".data := by
    rw [k_eq, beforeEq_no_eq hneq, hm]
    simp only [List.filter_append]
    rw [show List.filter (fun c => decide (c ≠ ' ')) "waiting".data = "waiting".data
        from by decide,
      show List.filter (fun c => decide (c ≠ ' ')) "for".data = "for".data from by decide,
      show List.filter (fun c => decide (c ≠ ' ')) "connections".data = "connections".data
        from by decide]
  rcases filter_ws_cases haws with hfa | ⟨x, hxm, hxw, hxs⟩
  · rcases filter_ws_cases hbws with hfb | ⟨x, hxm, hxw, hxs⟩
    · have hkv : lcStr ((beforeEq m).filter (fun c => decide (c ≠ ' '))) =
          "waitingforconnections".data := by
        rw [hk0, hfa, hfb]
        decide
      left
      unfold classifyMatch
      rw [if_neg (by simp [herr])]
      simp only [hkv]
      rw [if_neg (by decide), if_neg (by decide), if_neg (by decide), if_neg (by decide),
        if_neg (by decide), if_pos trivial]
    · right
      refine classifyMatch_none_of_ws herr ?_ hxw hxs
      rw [hk0]
      simp only [List.mem_append]
      exact Or.inl (Or.inr hxm)
  · right
    refine classifyMatch_none_of_ws herr ?_ hxw hxs
    rw [hk0]
    simp only [List.mem_append]
    exact Or.inl (Or.inl (Or.inl (Or.inr hxm)))

theorem classifyMatch_already {m : List Char}
    (h : PhraseShape "already".data "in".data "use".data m) :
    classifyMatch m = some (.err (-2) "Address already in use".data) ∨
      classifyMatch m = none := by
  obtain ⟨a, b, ⟨hane, haws⟩, ⟨hbne, hbws⟩, hm⟩ := h
  have hhd : (lcStr m).head? = some 'a' := by
    rw [hm]
    rfl
  have h1 : litCI "error".data m = none := litCI_cons_ne hhd (by decide)
  have h2 : containsCI "exception".data m = false :=
    containsCI_false (x := 'x') (by decide)
      (phrase_notin (x := 'x') hm haws hbws (by decide) (by decide) (by decide) (by decide))
  have h3 : containsCI "badvalue".data m = false :=
    containsCI_false (x := 'b') (by decide)
      (phrase_notin (x := 'b') hm haws hbws (by decide) (by decide) (by decide) (by decide))
  have herr : errorTest m = false := by
    simp [errorTest, h1, h2, h3]
  have hneq : '=' ∉ lcStr m :=
    phrase_notin (x := '=') hm haws hbws (by decide) (by decide) (by decide) (by decide)
  have hk0 : lcStr ((beforeEq m).filter (fun c => decide (c ≠ ' '))) =
      "already".data ++ a.filter (fun c => decide (c ≠ ' ')) ++ "in".data ++
        b.filter (fun c => decide (c ≠ ' ')) ++ "use".data := by
    rw [k_eq, beforeEq_no_eq hneq, hm]
    simp only [List.filter_append]
    rw [show List.filter (fun c => decide (c ≠ ' ')) "already".data = "already".data
        from by decide,
      show List.filter (fun c => decide (c ≠ ' ')) "in".data = "in".data from by decide,
      show List.filter (fun c => decide (c ≠ ' ')) "use".data = "use".data from by decide]
  rcases filter_ws_cases haws with hfa | ⟨x, hxm, hxw, hxs⟩
  · rcases filter_ws_cases hbws with hfb | ⟨x, hxm, hxw, hxs⟩
    · have hkv : lcStr ((beforeEq m).filter (fun c => decide (c ≠ ' '))) =
          "alreadyinuse".data := by
        rw [hk0, hfa, hfb]
        decide
      left
      unfold classifyMatch
      rw [if_neg (by simp [herr])]
      simp only [hkv]
      rw [if_neg (by decide), if_pos trivial]
    · right
      refine classifyMatch_none_of_ws herr ?_ hxw hxs
      rw [hk0]
      simp only [List.mem_append]
      exact Or.inl (Or.inr hxm)
  · right
    refine classifyMatch_none_of_ws herr ?_ hxw hxs
    rw [hk0]
    simp only [List.mem_append]
    exact Or.inl (Or.inl (Or.inl (Or.inr hxm)))

theorem classifyMatch_denied {m : List Char}
    (h : PhraseShape "denied".data "for".data "socket".data m) :
    classifyMatch m = some (.err (-3) "Permission denied".data) ∨
      classifyMatch m = none := by
  obtain ⟨a, b, ⟨hane, haws⟩, ⟨hbne, hbws⟩, hm⟩ := h
  have hhd : (lcStr m).head? = some 'd' := by
    rw [hm]
    rfl
  have h1 : litCI "error".data m = none := litCI_cons_ne hhd (by decide)
  have h2 : containsCI "exception".data m = false :=
    containsCI_false (x := 'x') (by decide)
      (phrase_notin (x := 'x') hm haws hbws (by decide) (by decide) (by decide) (by decide))
  have h3 : containsCI "badvalue".data m = false :=
    containsCI_false (x := 'b') (by decide)
      (phrase_notin (x := 'b') hm haws hbws (by decide) (by decide) (by decide) (by decide))
  have herr : errorTest m = false := by
    simp [errorTest, h1, h2, h3]
  have hneq : '=' ∉ lcStr m :=
    phrase_notin (x := '=') hm haws hbws (by decide) (by decide) (by decide) (by decide)
  have hk0 : lcStr ((beforeEq m).filter (fun c => decide (c ≠ ' '))) =
      "denied".data ++ a.filter (fun c => decide (c ≠ ' ')) ++ "for".data ++
        b.filter (fun c => decide (c ≠ ' ')) ++ "socket".data := by
    rw [k_eq, beforeEq_no_eq hneq, hm]
    simp only [List.filter_append]
    rw [show List.filter (fun c => decide (c ≠ ' ')) "denied".data = "denied".data
        from by decide,
      show List.filter (fun c => decide (c ≠ ' ')) "for".data = "for".data from by decide,
      show List.filter (fun c => decide (c ≠ ' ')) "socket".data = "socket".data
        from by decide]
  rcases filter_ws_cases haws with hfa | ⟨x, hxm, hxw, hxs⟩
  · rcases filter_ws_cases hbws with hfb | ⟨x, hxm, hxw, hxs⟩
    · have hkv : lcStr ((beforeEq m).filter (fun c => decide (c ≠ ' '))) =
          "deniedforsocket".data := by
        rw [hk0, hfa, hfb]
        decide
      left
      unfold classifyMatch
      rw [if_neg (by simp [herr])]
      simp only [hkv]
      rw [if_neg (by decide), if_neg (by decide), if_pos trivial]
    · right
      refine classifyMatch_none_of_ws herr ?_ hxw hxs
      rw [hk0]
      simp only [List.mem_append]
      exact Or.inl (Or.inr hxm)
  · right
    refine classifyMatch_none_of_ws herr ?_ hxw hxs
    rw [hk0]
    simp only [List.mem_append]
    exact Or.inl (Or.inl (Or.inl (Or.inr hxm)))

/- ### Locating the readiness phrase in a scanned line -/

theorem head_fixed {w : List Char} {x : Char} (hw : w.head? = some x)
    (hx : isJsWS x = false) : ∀ c, w.head? = some c → isJsWS c = false := by
  intro c hc
  rw [hw] at hc
  injection hc with hc
  subst hc
  exact hx

theorem containsCI_tail_false {pat : List Char} {c : Char} {cs : List Char}
    (h : containsCI pat (c :: cs) = false) : containsCI pat cs = false := by
  simp only [containsCI, Bool.or_eq_false_iff] at h
  exact h.2

theorem containsSpaced_tail_false {w1 w2 w3 : List Char} {c : Char} {cs : List Char}
    (h : containsSpaced w1 w2 w3 (c :: cs) = false) :
    containsSpaced w1 w2 w3 cs = false := by
  simp only [containsSpaced, Bool.or_eq_false_iff] at h
  exact h.2

theorem containsToken_tail_false {c : Char} {cs : List Char}
    (h : containsToken (c :: cs) = false) : containsToken cs = false := by
  simp only [containsToken, Bool.or_eq_false_iff] at h
  obtain ⟨⟨h1, h2⟩, h3⟩ := h
  simp [containsToken, containsCI_tail_false h1, containsCI_tail_false h2,
    containsCI_tail_false h3]

theorem containsCI_take {pat s : List Char} {n : Nat}
    (h : containsCI pat (s.take n) = true) : containsCI pat s = true := by
  have h2 := containsCI_infix (x := ([] : List Char)) (y := s.drop n) h
  rw [List.nil_append, List.take_append_drop] at h2
  exact h2

theorem containsCI_drop {pat s : List Char} {n : Nat}
    (h : containsCI pat (s.drop n) = true) : containsCI pat s = true := by
  have h2 := containsCI_infix (x := s.take n) (y := ([] : List Char)) h
  rw [List.append_nil, List.take_append_drop] at h2
  exact h2

theorem containsSpaced_append_left {w1 w2 w3 : List Char} :
    ∀ {x y : List Char}, containsSpaced w1 w2 w3 y = true →
    containsSpaced w1 w2 w3 (x ++ y) = true := by
  intro x
  induction x with
  | nil =>
    intro y h
    simpa using h
  | cons c cs ih =>
    intro y h
    simp only [List.cons_append, containsSpaced, Bool.or_eq_true]
    exact Or.inr (ih h)

theorem containsSpaced_drop {w1 w2 w3 s : List Char} {n : Nat}
    (h : containsSpaced w1 w2 w3 (s.drop n) = true) :
    containsSpaced w1 w2 w3 s = true := by
  have h2 := containsSpaced_append_left (x := s.take n) h
  rwa [List.take_append_drop] at h2

theorem containsToken_drop {s : List Char} {n : Nat}
    (h : containsToken (s.drop n) = true) : containsToken s = true := by
  simp only [containsToken, Bool.or_eq_true] at h ⊢
  rcases h with (h | h) | h
  · exact Or.inl (Or.inl (containsCI_drop h))
  · exact Or.inl (Or.inr (containsCI_drop h))
  · exact Or.inr (containsCI_drop h)

/-- A match that lower-cases to exactly `waiting for connections` is
classified as the readiness signal. -/
theorem classifyMatch_ready {m : List Char}
    (h : lcStr m = "waiting for connections".data) :
    classifyMatch m = some .ready := by
  have hhd : (lcStr m).head? = some 'w' := by
    rw [h]
    rfl
  have hnotin : ∀ x : Char, x ∉ "waiting for connections".data → x ∉ lcStr m := by
    intro x hx hmem
    rw [h] at hmem
    exact hx hmem
  have h1 : litCI "error".data m = none := litCI_cons_ne hhd (by decide)
  have h2 : containsCI "exception".data m = false :=
    containsCI_false (x := 'x') (by decide) (hnotin 'x' (by decide))
  have h3 : containsCI "badvalue".data m = false :=
    containsCI_false (x := 'b') (by decide) (hnotin 'b' (by decide))
  have herr : errorTest m = false := by
    simp [errorTest, h1, h2, h3]
  have hkv : lcStr ((beforeEq m).filter (fun c => decide (c ≠ ' '))) =
      "waitingforconnections".data := by
    rw [k_eq, beforeEq_no_eq (hnotin '=' (by decide)), h]
    decide
  unfold classifyMatch
  rw [if_neg (by simp [herr])]
  simp only [hkv]
  rw [if_neg (by decide), if_neg (by decide), if_neg (by decide), if_neg (by decide),
    if_neg (by decide), if_pos trivial]

/-- A string whose lower-cased image starts with a single space followed by a
non-whitespace character: `\s+` consumes exactly that space. -/
theorem ws_single_step {s T : List Char}
    (h : lcStr s = ' ' :: T) (hT : ∀ c, T.head? = some c → isJsWS c = false) :
    ∃ t, s = ' ' :: t ∧ takeWS s = (1, t) ∧ lcStr t = T := by
  cases s with
  | nil => simp [lcStr] at h
  | cons c0 t =>
    simp only [lcStr, List.map_cons] at h
    injection h with hc0 ht
    have hc0e : c0 = ' ' := (lc_eq_low (by decide)).mp hc0
    subst hc0e
    refine ⟨t, rfl, ?_, ht⟩
    cases t with
    | nil => decide
    | cons c1 t2 =>
      have hc1 : isJsWS c1 = false := by
        have hh := hT (lc c1) (by rw [← ht]; simp)
        rwa [isJsWS_lc] at hh
      simp [takeWS, hc1, show isJsWS ' ' = true from by decide]

/-- When the exact single-space phrase `waiting for connections` starts at the
head of `s`, the phrase alternative consumes exactly 23 characters. -/
theorem phraseAlt_waiting_exact {s r : List Char}
    (h : lcStr s = "waiting for connections".data ++ r) :
    phraseAlt "waiting".data "for".data "connections".data s = some (s.drop 23) := by
  have hsplit : ("waiting for connections".data : List Char) ++ r =
      "waiting".data ++ (' ' :: ("for".data ++ (' ' :: ("connections".data ++ r)))) := rfl
  rw [hsplit] at h
  obtain ⟨h1, h2⟩ := litCI_pref h
  rw [show ("waiting".data : List Char).length = 7 from by decide] at h1 h2
  obtain ⟨t1, ht1e, ht1w, ht1l⟩ := ws_single_step h2
    (head_fixed (x := 'f') rfl (by decide))
  obtain ⟨h3, h4⟩ := litCI_pref ht1l
  rw [show ("for".data : List Char).length = 3 from by decide] at h3 h4
  obtain ⟨t2, ht2e, ht2w, ht2l⟩ := ws_single_step h4
    (head_fixed (x := 'c') rfl (by decide))
  obtain ⟨h5, h6⟩ := litCI_pref ht2l
  rw [show ("connections".data : List Char).length = 11 from by decide] at h5
  have e8 : s.drop 8 = t1 := by
    rw [show (8 : Nat) = 7 + 1 from rfl, ← List.drop_drop, ht1e]
    rfl
  have e11 : t1.drop 3 = s.drop 11 := by
    rw [show (11 : Nat) = 8 + 3 from rfl, ← List.drop_drop, e8]
  have e12 : s.drop 12 = t2 := by
    rw [show (12 : Nat) = 11 + 1 from rfl, ← List.drop_drop, ← e11, ht2e]
    rfl
  have e23 : t2.drop 11 = s.drop 23 := by
    rw [show (23 : Nat) = 12 + 11 from rfl, ← List.drop_drop, e12]
  rw [← e23]
  simp [phraseAlt, h1, ht1w, h3, ht2w, h5]

/-- When the exact phrase starts at the head of `s`, the `keyRE` scan matches
there with length 23: the `pid=`/`port=` alternatives fail on the leading `w`
and the phrase alternative is next in alternation order. -/
theorem matchAt_waiting {s r : List Char}
    (h : lcStr s = "waiting for connections".data ++ r) :
    matchAt s = some 23 := by
  have hlen : 23 ≤ s.length := by
    have hc := congrArg List.length h
    simp only [lcStr, List.length_map, List.length_append] at hc
    rw [show ("waiting for connections".data : List Char).length = 23 from by decide] at hc
    omega
  have hhd : (lcStr s).head? = some 'w' := by
    rw [h]
    rfl
  have hpid : litCI "pid=".data s = none := litCI_cons_ne hhd (by decide)
  have hport : litCI "port=".data s = none := litCI_cons_ne hhd (by decide)
  have hph := phraseAlt_waiting_exact h
  simp only [matchAt, numAlt, hpid, hport, hph, List.length_drop]
  congr 1
  omega

theorem take_mid_w {u pv L : List Char} {n : Nat}
    (hL : L = u ++ ('w' :: pv)) (hlt : u.length < n) :
    ∃ X, L.take n = u ++ 'w' :: X := by
  subst hL
  rw [List.take_append_eq_append_take, List.take_of_length_le (le_of_lt hlt)]
  cases hk : n - u.length with
  | zero => omega
  | succ k => exact ⟨pv.take k, rfl⟩

theorem w_not_in_tail {a b : List Char}
    (ha : ∀ c ∈ a, isJsWS c = true) (hb : ∀ c ∈ b, isJsWS c = true) :
    'w' ∉ "aiting".data ++ a ++ "for".data ++ b ++ "connections".data := by
  intro hmem
  simp only [List.mem_append] at hmem
  rcases hmem with (((h | h) | h) | h) | h
  · exact absurd h (by decide)
  · exact absurd (ha _ h) (by decide)
  · exact absurd h (by decide)
  · exact absurd (hb _ h) (by decide)
  · exact absurd h (by decide)

/-- Inside a `waiting\s+for\s+connections` match, `w` occurs only at the very
first position, so a phrase occurrence starting inside the match must start at
its head. -/
theorem waiting_head {u X a b m : List Char}
    (hm : lcStr m = "waiting".data ++ a ++ "for".data ++ b ++ "connections".data)
    (ha : ∀ c ∈ a, isJsWS c = true) (hb : ∀ c ∈ b, isJsWS c = true)
    (hu : lcStr m = u ++ 'w' :: X) : u = [] := by
  cases u with
  | nil => rfl
  | cons c u2 =>
    exfalso
    rw [hm] at hu
    have hc : ("waiting".data ++ a ++ "for".data ++ b ++ "connections".data : List Char) =
        'w' :: ("aiting".data ++ a ++ "for".data ++ b ++ "connections".data) := by
      simp
    rw [hc] at hu
    have hstep : (c :: u2) ++ 'w' :: X = c :: (u2 ++ 'w' :: X) := rfl
    rw [hstep] at hu
    injection hu with h1 h2
    refine absurd ?_ (w_not_in_tail ha hb)
    rw [h2]
    simp

/-- The scan of a line that contains the exact phrase `waiting for
connections` (case-insensitively), no `error`/`exception`/`badvalue` token,
and no `already\s+in\s+use` or `denied\s+for\s+socket` phrase, produces a
match classified as the readiness signal. -/
theorem ready_found : ∀ fuel : Nat, ∀ s : List Char, s.length ≤ fuel →
    containsCI "waiting for connections".data s = true →
    containsToken s = false →
    containsSpaced "already".data "in".data "use".data s = false →
    containsSpaced "denied".data "for".data "socket".data s = false →
    ∃ m ∈ scanFuel fuel s, classifyMatch m = some .ready := by
  intro fuel
  induction fuel with
  | zero =>
    intro s hle hw ht ha hd
    have hs : s = [] := List.length_eq_zero.mp (Nat.le_zero.mp hle)
    subst hs
    exact absurd hw (by decide)
  | succ fuel ih =>
    intro s hle hw ht ha hd
    cases s with
    | nil => exact absurd hw (by decide)
    | cons c rest =>
      cases hma : matchAt (c :: rest) with
      | none =>
        have hw2 : containsCI "waiting for connections".data rest = true := by
          cases hlit : (litCI "waiting for connections".data (c :: rest)).isSome with
          | false =>
            simp only [containsCI, hlit, Bool.false_or] at hw
            exact hw
          | true =>
            exfalso
            rw [Option.isSome_iff_exists] at hlit
            obtain ⟨rr, hrr⟩ := hlit
            obtain ⟨p, hp1, hp2, hp3⟩ := litCI_some hrr
            have hls : lcStr (c :: rest) =
                "waiting for connections".data ++ lcStr rr := by
              rw [hp1]
              simp only [lcStr, List.map_append]
              simp only [lcStr] at hp2
              rw [hp2]
            rw [matchAt_waiting hls] at hma
            cases hma
        have hlen2 : rest.length ≤ fuel := by
          simp only [List.length_cons] at hle
          omega
        obtain ⟨m, hm, hcm⟩ := ih rest hlen2 hw2 (containsToken_tail_false ht)
          (containsSpaced_tail_false ha) (containsSpaced_tail_false hd)
        refine ⟨m, ?_, hcm⟩
        have hsc : scanFuel (fuel + 1) (c :: rest) = scanFuel fuel rest := by
          simp [scanFuel, hma]
        rw [hsc]
        exact hm
      | some n =>
        obtain ⟨hn1, hn2, hshape⟩ := matchAt_some hma
        obtain ⟨u, v, huv⟩ := containsCI_spec hw
        have hsc : scanFuel (fuel + 1) (c :: rest) =
            (c :: rest).take n :: scanFuel fuel ((c :: rest).drop n) := by
          simp [scanFuel, hma]
        by_cases hun : n ≤ u.length
        · have hdrop : containsCI "waiting for connections".data
              ((c :: rest).drop n) = true := by
            refine containsCI_of (a := u.drop n) (b := v) ?_
            have hmd : lcStr ((c :: rest).drop n) = (lcStr (c :: rest)).drop n := by
              simp [lcStr, List.map_drop]
            rw [hmd, huv,
              List.drop_append_of_le_length (by simp; omega),
              List.drop_append_of_le_length hun]
          have hts : containsToken ((c :: rest).drop n) = false := by
            cases hx : containsToken ((c :: rest).drop n) with
            | false => rfl
            | true => exact absurd (containsToken_drop hx) (by simp [ht])
          have has : containsSpaced "already".data "in".data "use".data
              ((c :: rest).drop n) = false := by
            cases hx : containsSpaced "already".data "in".data "use".data
                ((c :: rest).drop n) with
            | false => rfl
            | true => exact absurd (containsSpaced_drop hx) (by simp [ha])
          have hds : containsSpaced "denied".data "for".data "socket".data
              ((c :: rest).drop n) = false := by
            cases hx : containsSpaced "denied".data "for".data "socket".data
                ((c :: rest).drop n) with
            | false => rfl
            | true => exact absurd (containsSpaced_drop hx) (by simp [hd])
          have hlen2 : ((c :: rest).drop n).length ≤ fuel := by
            simp only [List.length_drop, List.length_cons] at *
            omega
          obtain ⟨m, hm, hcm⟩ := ih _ hlen2 hdrop hts has hds
          refine ⟨m, ?_, hcm⟩
          rw [hsc]
          exact List.mem_cons_of_mem _ hm
        · push_neg at hun
          have hassoc : lcStr (c :: rest) =
              u ++ ('w' :: ("aiting for connections".data ++ v)) := by
            rw [huv, List.append_assoc]
            rfl
          obtain ⟨X, hX⟩ := take_mid_w hassoc hun
          have hXm : lcStr ((c :: rest).take n) = u ++ 'w' :: X := by
            rw [lcStr, List.map_take]
            exact hX
          have hwmem : 'w' ∈ lcStr ((c :: rest).take n) := by
            rw [hXm]
            simp
          rcases hshape with h | h | h | h | h | h
          · exfalso
            obtain ⟨d, hd2, -, hdig⟩ := h
            rw [hd2] at hwmem
            rcases List.mem_append.mp hwmem with hm | hm
            · exact absurd hm (by decide)
            · exact absurd (hdig _ hm) (by decide)
          · exfalso
            obtain ⟨d, hd2, -, hdig⟩ := h
            rw [hd2] at hwmem
            rcases List.mem_append.mp hwmem with hm | hm
            · exact absurd hm (by decide)
            · exact absurd (hdig _ hm) (by decide)
          · obtain ⟨a, b, ⟨hane, haws⟩, ⟨hbne, hbws⟩, hm2⟩ := h
            have hu0 : u = [] := waiting_head hm2 haws hbws hXm
            subst hu0
            have hls : lcStr (c :: rest) = "waiting for connections".data ++ v := by
              simpa using huv
            have h23 := matchAt_waiting hls
            rw [hma] at h23
            injection h23 with h23
            subst h23
            refine ⟨(c :: rest).take 23, ?_, ?_⟩
            · rw [hsc]
              exact List.mem_cons_self _ _
            · refine classifyMatch_ready ?_
              have hmt : lcStr ((c :: rest).take 23) = (lcStr (c :: rest)).take 23 := by
                simp [lcStr, List.map_take]
              rw [hmt, hls, List.take_append_eq_append_take,
                show ("waiting for connections".data : List Char).take 23 =
                  "waiting for connections".data from by decide,
                show ("waiting for connections".data : List Char).length = 23
                  from by decide]
              simp
          · exfalso
            have hph := phraseAlt_of_shape (X := (c :: rest).drop n) h
              (by decide) (by decide) (head_fixed (x := 'i') rfl (by decide))
              (head_fixed (x := 'u') rfl (by decide))
            rw [List.take_append_drop] at hph
            have hcs := containsSpaced_suffix (x := ([] : List Char)) hph
            rw [List.nil_append] at hcs
            exact absurd hcs (by simp [ha])
          · exfalso
            have hph := phraseAlt_of_shape (X := (c :: rest).drop n) h
              (by decide) (by decide) (head_fixed (x := 'f') rfl (by decide))
              (head_fixed (x := 's') rfl (by decide))
            rw [List.take_append_drop] at hph
            have hcs := containsSpaced_suffix (x := ([] : List Char)) hph
            rw [List.nil_append] at hcs
            exact absurd hcs (by simp [hd])
          · exfalso
            have htok : containsToken (c :: rest) = true := by
              rcases h with ⟨r, hr⟩ | ⟨r, hr⟩ | ⟨r, hr⟩
              · have hcc : containsCI "error".data ((c :: rest).take n) = true :=
                  containsCI_head (by simp [(litCI_pref hr).1])
                simp [containsToken, containsCI_take hcc]
              · have hcc : containsCI "exception".data ((c :: rest).take n) = true :=
                  containsCI_head (by simp [(litCI_pref hr).1])
                simp [containsToken, containsCI_take hcc]
              · have hcc : containsCI "badvalue".data ((c :: rest).take n) = true :=
                  containsCI_head (by simp [(litCI_pref hr).1])
                simp [containsToken, containsCI_take hcc]
            exact absurd htok (by simp [ht])

theorem serialScan_append (l₁ l₂ : List Note) :
    ∀ cur lo, serialScan cur lo (l₁ ++ l₂) =
      match serialScan cur lo l₁ with
      | some p => serialScan p.1 p.2 l₂
      | none => none := by
  induction l₁ with
  | nil => intro cur lo; rfl
  | cons n rest ih =>
    intro cur lo
    simp only [List.cons_append, serialScan]
    cases h : serialNote cur lo n with
    | none => rfl
    | some p => exact ih p.1 p.2

/-- Association-list lookup misses every key strictly below the probe. -/
theorem lookup_none_of_keys_lt (l : List (Nat × Settle)) (w : Nat)
    (h : ∀ p o, (p, o) ∈ l → p < w) : l.lookup w = none := by
  induction l with
  | nil => rfl
  | cons kv rest ih =>
    have hk : kv.1 < w := h kv.1 kv.2 (by simp)
    have hne : (w == kv.1) = false := by
      simp only [beq_eq_false_iff_ne, ne_eq]
      omega
    simp only [List.lookup, hne]
    exact ih fun p o hm => h p o (List.mem_cons_of_mem _ hm)

theorem qinv_init : QInv init := by
  refine ⟨⟨0, rfl, by simp [init], by simp [init]⟩, ?_, ?_, ?_, ?_, ?_, ?_, ?_, ?_, ?_⟩
  · simp [init]
  · simp [init]
  · simp [init]
  · simp [init]
  · intro a h
    simp [init] at h
  · intro p o h
    simp only [init, List.mem_cons, List.mem_singleton] at h
    rcases h with h | h | h
    · simp [show p = 0 from congrArg Prod.fst h, init]
    · simp [show p = 1 from congrArg Prod.fst h, init]
    · exact absurd h (List.not_mem_nil _)
  · intro c m h
    have : init.settles.lookup init.openP = some Settle.resolved := rfl
    rw [this] at h
    exact absurd (Option.some.inj h) (by simp)
  · intro c m h
    simp [init] at h
  · intro w o h
    simp [init] at h

theorem serialScan_pass (l : List Note) (hp : ∀ n ∈ l, passNote n = true) :
    ∀ cur lo, serialScan cur lo l = some (cur, lo) := by
  induction l with
  | nil => intro cur lo; rfl
  | cons n rest ih =>
    intro cur lo
    have hn : passNote n = true := hp n (by simp)
    have hr : ∀ x ∈ rest, passNote x = true := fun x hx => hp x (List.mem_cons_of_mem _ hx)
    cases n with
    | emit e => simpa [serialScan, serialNote] using ih hr cur lo
    | spawn p => simpa [serialScan, serialNote] using ih hr cur lo
    | kill p => simpa [serialScan, serialNote] using ih hr cur lo
    | bodyStart w => simp [passNote] at hn
    | bodyEnd w => simp [passNote] at hn

theorem serialScan_append_pass {l : List Note} {cur lo} (l₂ : List Note)
    (h : serialScan none 0 l = some (cur, lo)) (hp : ∀ n ∈ l₂, passNote n = true) :
    serialScan none 0 (l ++ l₂) = some (cur, lo) := by
  rw [serialScan_append, h]
  exact serialScan_pass l₂ hp cur lo

theorem serialScan_snoc_start {l : List Note} {lo w : Nat}
    (h : serialScan none 0 l = some (none, lo)) (hw : lo ≤ w) :
    serialScan none 0 (l ++ [Note.bodyStart w]) = some (some w, w + 1) := by
  rw [serialScan_append, h]
  simp [serialScan, serialNote, hw]

theorem serialScan_snoc_end {l : List Note} {lo w : Nat}
    (h : serialScan none 0 l = some (some w, lo)) :
    serialScan none 0 (l ++ [Note.bodyEnd w]) = some (none, lo) := by
  rw [serialScan_append, h]
  simp [serialScan, serialNote]

/-- Rebuild the invariant across a state change that leaves every component
the invariant mentions untouched. -/
theorem QInv.rebuild {s t : SState} (h : QInv s)
    (hlog : t.log = s.log) (hq : t.queue = s.queue) (hact : t.active = s.active)
    (hnext : t.nextP = s.nextP) (hop : t.openP = s.openP) (hcp : t.closeP = s.closeP)
    (hset : t.settles = s.settles) (hio : t.isOpening = s.isOpening) : QInv t := by
  refine ⟨?_, ?_, ?_, ?_, ?_, ?_, ?_, ?_, ?_, ?_⟩ <;>
    simp only [hlog, hq, hact, hnext, hop, hcp, hset, hio] <;> first
      | exact h.scan
      | exact h.qsorted
      | exact h.qbound
      | exact h.openPlt
      | exact h.closePlt
      | exact h.activeLt
      | exact h.settleKey
      | exact h.rejLookup
      | exact h.rejActive
      | exact h.closeRes

theorem qinv_runOpenGen {s : SState} {w : Nat}
    (hscan : ∃ lo, serialScan none 0 s.log = some (some w, lo) ∧
      (∀ t ∈ s.queue, lo ≤ t.wrapper) ∧ lo ≤ s.nextP)
    (hw : w < s.nextP)
    (hqs : s.queue.Pairwise (fun a b => a.wrapper < b.wrapper))
    (hqb : ∀ t ∈ s.queue, t.wrapper < s.nextP)
    (hop : s.openP < s.nextP) (hcp : s.closeP < s.nextP)
    (hsk : ∀ p o, (p, o) ∈ s.settles → p < s.nextP)
    (hrej : ∀ c m, s.settles.lookup s.openP = some (.rejected c m) →
      s.isOpening = false) :
    QInv (runOpenGen s w) := by
  obtain ⟨lo, hsc, hlo, hlon⟩ := hscan
  unfold runOpenGen
  by_cases hc : (s.isClosing || s.isRunning) = true
  · rw [if_pos hc]
    refine ⟨⟨lo, by simpa using hsc, by simpa using hlo, by simpa using hlon⟩,
      by simpa using hqs, by simpa using hqb, by simpa using hop, by simpa using hcp,
      ?_, ?_, ?_, ?_, ?_⟩
    · intro a hA
      simp only [Option.some.injEq] at hA
      simp [← hA, Active.wrapperOf, hw]
    · intro p o hm
      exact hsk p o (by simpa using hm)
    · intro c m _
      rfl
    · intro c m hA
      simp at hA
    · intro w o hA
      simp at hA
  · rw [if_neg hc]
    refine ⟨⟨lo, ?_, by simpa using hlo, by simpa using hlon⟩,
      by simpa using hqs, by simpa using hqb, by simpa using hop, by simpa using hcp,
      ?_, ?_, ?_, ?_, ?_⟩
    · simp only []
      refine serialScan_append_pass _ hsc ?_
      intro n hn
      simp only [List.mem_cons, List.not_mem_nil, or_false] at hn
      rcases hn with hn | hn <;> simp [hn, passNote]
    · intro a hA
      simp only [Option.some.injEq] at hA
      simp [← hA, Active.wrapperOf, hw]
    · intro p o hm
      exact hsk p o (by simpa using hm)
    · intro c m hl
      exact hrej c m (by simpa using hl)
    · intro c m hA
      simp at hA
    · intro w o hA
      simp at hA

theorem qinv_runCloseGen {s : SState} {w : Nat}
    (hscan : ∃ lo, serialScan none 0 s.log = some (some w, lo) ∧
      (∀ t ∈ s.queue, lo ≤ t.wrapper) ∧ lo ≤ s.nextP)
    (hw : w < s.nextP)
    (hqs : s.queue.Pairwise (fun a b => a.wrapper < b.wrapper))
    (hqb : ∀ t ∈ s.queue, t.wrapper < s.nextP)
    (hop : s.openP < s.nextP) (hcp : s.closeP < s.nextP)
    (hsk : ∀ p o, (p, o) ∈ s.settles → p < s.nextP)
    (hrej : ∀ c m, s.settles.lookup s.openP = some (.rejected c m) →
      s.isOpening = false) :
    QInv (runCloseGen s w) := by
  obtain ⟨lo, hsc, hlo, hlon⟩ := hscan
  unfold runCloseGen
  by_cases hc : (s.isOpening || !s.isRunning) = true
  · rw [if_pos hc]
    refine ⟨⟨lo, by simpa using hsc, by simpa using hlo, by simpa using hlon⟩,
      by simpa using hqs, by simpa using hqb, by simpa using hop, by simpa using hcp,
      ?_, ?_, ?_, ?_, ?_⟩
    · intro a hA
      simp only [Option.some.injEq] at hA
      simp [← hA, Active.wrapperOf, hw]
    · intro p o hm
      exact hsk p o (by simpa using hm)
    · intro c m hl
      exact hrej c m (by simpa using hl)
    · intro c m hA
      simp at hA
    · intro w o hA
      simp only [Option.some.injEq, Active.closeBody.injEq] at hA
      exact hA.2.symm
  · rw [if_neg hc]
    refine ⟨⟨lo, ?_, by simpa using hlo, by simpa using hlon⟩,
      by simpa using hqs, by simpa using hqb, by simpa using hop, by simpa using hcp,
      ?_, ?_, ?_, ?_, ?_⟩
    · simp only []
      refine serialScan_append_pass _ hsc ?_
      intro n hn
      simp only [List.mem_cons, List.not_mem_nil, or_false] at hn
      rcases hn with hn | hn <;> simp [hn, passNote]
    · intro a hA
      simp only [Option.some.injEq] at hA
      simp [← hA, Active.wrapperOf, hw]
    · intro p o hm
      exact hsk p o (by simpa using hm)
    · intro c m hl
      exact hrej c m (by simpa using hl)
    · intro c m hA
      simp at hA
    · intro w o hA
      simp at hA

theorem qinv_tryDequeue {s : SState} (h : QInv s) : QInv (tryDequeue s) := by
  obtain ⟨lo, hscan, hlo, hlon⟩ := h.scan
  unfold tryDequeue
  cases ha : s.active with
  | some a => simpa [ha] using h
  | none =>
    rw [ha] at hscan
    simp only [ha, Option.isSome_none, Bool.false_eq_true, if_false]
    cases hq : s.queue with
    | nil => exact h
    | cons t rest =>
      obtain ⟨k, w⟩ := t
      have htw : lo ≤ w := hlo ⟨k, w⟩ (by rw [hq]; simp)
      have htn : w < s.nextP := h.qbound ⟨k, w⟩ (by rw [hq]; simp)
      have hrest : ∀ x ∈ rest, w + 1 ≤ x.wrapper := by
        intro x hx
        have := (List.pairwise_cons.mp (hq ▸ h.qsorted)).1 x hx
        simp only [Task.wrapper] at this ⊢
        omega
      have hrestS : rest.Pairwise (fun a b => a.wrapper < b.wrapper) :=
        (List.pairwise_cons.mp (hq ▸ h.qsorted)).2
      have hrestB : ∀ x ∈ rest, x.wrapper < s.nextP := fun x hx =>
        h.qbound x (by rw [hq]; exact List.mem_cons_of_mem _ hx)
      have hstart : serialScan none 0 (s.log ++ [Note.bodyStart w]) =
          some (some w, w + 1) := serialScan_snoc_start (by simpa using hscan) htw
      cases k with
      | openB =>
        refine qinv_runOpenGen ⟨w + 1, by simpa using hstart, by simpa using hrest,
          by simpa using htn⟩ (by simpa using htn) (by simpa using hrestS)
          (by simpa using hrestB) (by simpa using h.openPlt) (by simpa using h.closePlt)
          ?_ ?_
        · intro p o hm
          exact h.settleKey p o (by simpa using hm)
        · intro c m hl
          exact h.rejLookup c m (by simpa using hl)
      | closeB =>
        refine qinv_runCloseGen ⟨w + 1, by simpa using hstart, by simpa using hrest,
          by simpa using htn⟩ (by simpa using htn) (by simpa using hrestS)
          (by simpa using hrestB) (by simpa using h.openPlt) (by simpa using h.closePlt)
          ?_ ?_
        · intro p o hm
          exact h.settleKey p o (by simpa using hm)
        · intro c m hl
          exact h.rejLookup c m (by simpa using hl)

theorem settleP_fields (s : SState) (p : Nat) (o : Settle) :
    (settleP s p o).queue = s.queue ∧ (settleP s p o).log = s.log ∧
    (settleP s p o).active = s.active ∧ (settleP s p o).nextP = s.nextP ∧
    (settleP s p o).openP = s.openP ∧ (settleP s p o).closeP = s.closeP ∧
    (settleP s p o).isOpening = s.isOpening := by
  unfold settleP
  split <;> exact ⟨rfl, rfl, rfl, rfl, rfl, rfl, rfl⟩

theorem settleP_mem {s : SState} {p : Nat} {o : Settle} {q : Nat} {u : Settle}
    (h : (q, u) ∈ (settleP s p o).settles) : (q = p ∧ u = o) ∨ (q, u) ∈ s.settles := by
  unfold settleP at h
  split at h
  · exact Or.inr h
  · rcases List.mem_cons.mp h with h | h
    · exact Or.inl (by simpa [Prod.ext_iff] using h)
    · exact Or.inr h

theorem settleP_lookup (s : SState) (p : Nat) (o : Settle) (q : Nat) :
    (settleP s p o).settles.lookup q =
      if (s.settles.lookup p).isSome then s.settles.lookup q
      else if q = p then some o else s.settles.lookup q := by
  unfold settleP
  by_cases hs : (s.settles.lookup p).isSome
  · simp [hs]
  · simp only [hs, Bool.false_eq_true, if_false]
    by_cases hq : q = p
    · subst hq
      simp [List.lookup]
    · have : (q == p) = false := by simpa using hq
      simp [List.lookup, this, hq]

theorem qinv_settleActive {s : SState} (h : QInv s) : QInv (settleActive s) := by
  obtain ⟨lo, hscan, hlo, hlon⟩ := h.scan
  unfold settleActive
  cases ha : s.active with
  | none => exact h
  | some a =>
    cases a with
    | openBody w io =>
      cases io with
      | none => exact h
      | some o =>
        apply qinv_tryDequeue
        obtain ⟨f1, f2, f3, f4, f5, f6, f7⟩ := settleP_fields s w o
        have hwn : w < s.nextP := by simpa [Active.wrapperOf] using h.activeLt _ ha
        have hscan2 : serialScan none 0 (s.log ++ [Note.bodyEnd w]) = some (none, lo) := by
          apply serialScan_snoc_end
          rw [ha] at hscan
          simpa using hscan
        refine ⟨⟨lo, ?_, ?_, ?_⟩, ?_, ?_, ?_, ?_, ?_, ?_, ?_, ?_, ?_⟩
        · simpa [f2] using hscan2
        · simpa [f1] using hlo
        · simpa [f4] using hlon
        · simpa [f1] using h.qsorted
        · intro t ht
          rw [f4]
          exact h.qbound t (by simpa [f1] using ht)
        · simpa [f4, f5] using h.openPlt
        · simpa [f4, f6] using h.closePlt
        · intro a hA
          simp at hA
        · intro p u hm
          rw [f4]
          rcases settleP_mem (by simpa using hm) with ⟨hp, _⟩ | hold
          · omega
          · exact h.settleKey p u hold
        · intro c m hl
          simp only [f5, f7] at hl ⊢
          rw [settleP_lookup] at hl
          by_cases hset : (s.settles.lookup w).isSome
          · rw [if_pos hset] at hl
            exact h.rejLookup c m hl
          · rw [if_neg hset] at hl
            by_cases hqp : s.openP = w
            · rw [if_pos hqp] at hl
              have ho : o = Settle.rejected c m := by simpa using hl
              exact h.rejActive c m (by rw [ha, hqp, ho])
            · rw [if_neg hqp] at hl
              exact h.rejLookup c m hl
        · intro c m hA
          simp at hA
        · intro w2 o2 hA
          simp at hA
    | closeBody w io =>
      cases io with
      | none => exact h
      | some o =>
        apply qinv_tryDequeue
        obtain ⟨f1, f2, f3, f4, f5, f6, f7⟩ := settleP_fields s w o
        have hwn : w < s.nextP := by simpa [Active.wrapperOf] using h.activeLt _ ha
        have ho : o = Settle.resolved := h.closeRes w o ha
        have hscan2 : serialScan none 0 (s.log ++ [Note.bodyEnd w]) = some (none, lo) := by
          apply serialScan_snoc_end
          rw [ha] at hscan
          simpa using hscan
        refine ⟨⟨lo, ?_, ?_, ?_⟩, ?_, ?_, ?_, ?_, ?_, ?_, ?_, ?_, ?_⟩
        · simpa [f2] using hscan2
        · simpa [f1] using hlo
        · simpa [f4] using hlon
        · simpa [f1] using h.qsorted
        · intro t ht
          rw [f4]
          exact h.qbound t (by simpa [f1] using ht)
        · simpa [f4, f5] using h.openPlt
        · simpa [f4, f6] using h.closePlt
        · intro a hA
          simp at hA
        · intro p u hm
          rw [f4]
          rcases settleP_mem (by simpa using hm) with ⟨hp, _⟩ | hold
          · omega
          · exact h.settleKey p u hold
        · intro c m hl
          simp only [f5, f7] at hl ⊢
          rw [settleP_lookup] at hl
          by_cases hset : (s.settles.lookup w).isSome
          · rw [if_pos hset] at hl
            exact h.rejLookup c m hl
          · rw [if_neg hset] at hl
            by_cases hqp : s.openP = w
            · rw [if_pos hqp] at hl
              rw [ho] at hl
              exact absurd (Option.some.inj hl.symm) (by simp)
            · rw [if_neg hqp] at hl
              exact h.rejLookup c m hl
        · intro c m hA
          simp at hA
        · intro w2 o2 hA
          simp at hA

theorem qinv_drainFuel (fuel : Nat) {s : SState} (h : QInv s) :
    QInv (drainFuel fuel s) := by
  induction fuel generalizing s with
  | zero => exact h
  | succ n ih =>
    unfold drainFuel
    by_cases h1 : activeDone s = true
    · rw [if_pos h1]
      exact ih (qinv_settleActive h)
    · rw [if_neg h1]
      by_cases h2 : (s.active.isNone && !s.queue.isEmpty) = true
      · rw [if_pos h2]
        exact ih (qinv_tryDequeue h)
      · rw [if_neg h2]
        exact h

theorem qinv_drain {s : SState} (h : QInv s) : QInv (drain s) :=
  qinv_drainFuel _ h

theorem qinv_settleOpenInner {s : SState} {o : Settle} (h : QInv s)
    (ho : ∀ c m, o = .rejected c m → s.isOpening = false) :
    QInv (settleOpenInner s o) := by
  unfold settleOpenInner
  cases ha : s.active with
  | none => exact h
  | some a =>
    cases a with
    | closeBody w io => exact h
    | openBody w io =>
      cases io with
      | some u => exact h
      | none =>
        obtain ⟨lo, hscan, hlo, hlon⟩ := h.scan
        rw [ha] at hscan
        have hwn : w < s.nextP := by simpa [Active.wrapperOf] using h.activeLt _ ha
        refine ⟨⟨lo, by simpa using hscan, by simpa using hlo, by simpa using hlon⟩,
          by simpa using h.qsorted, ?_, by simpa using h.openPlt,
          by simpa using h.closePlt, ?_, ?_, ?_, ?_, ?_⟩
        · intro t ht
          exact h.qbound t (by simpa using ht)
        · intro a hA
          simp only [Option.some.injEq] at hA
          simp [← hA, Active.wrapperOf, hwn]
        · intro p u hm
          exact h.settleKey p u (by simpa using hm)
        · intro c m hl
          exact h.rejLookup c m (by simpa using hl)
        · intro c m hA
          simp only [Option.some.injEq, Active.openBody.injEq, Option.some.injEq] at hA
          exact ho c m hA.2
        · intro w2 o2 hA
          simp at hA

theorem qinv_matchStep {s : SState} (m : List Char) (h : QInv s) :
    QInv (matchStep s m).1 := by
  unfold matchStep
  cases classifyMatch m with
  | none => exact h
  | some sig =>
    cases sig with
    | pid n => exact h.rebuild rfl rfl rfl rfl rfl rfl rfl rfl
    | port n => exact h.rebuild rfl rfl rfl rfl rfl rfl rfl rfl
    | ready =>
      refine qinv_settleOpenInner ?_ ?_
      · obtain ⟨lo, hscan, hlo, hlon⟩ := h.scan
        refine ⟨⟨lo, ?_, by simpa using hlo, by simpa using hlon⟩,
          by simpa using h.qsorted, ?_, by simpa using h.openPlt,
          by simpa using h.closePlt, ?_, ?_, ?_, ?_, ?_⟩
        · simp only []
          refine serialScan_append_pass _ (by simpa using hscan) ?_
          intro n hn
          simp only [List.mem_singleton] at hn
          simp [hn, passNote]
        · intro t ht
          exact h.qbound t (by simpa using ht)
        · intro a hA
          exact h.activeLt a (by simpa using hA)
        · intro p u hm
          exact h.settleKey p u (by simpa using hm)
        · intro c m _
          rfl
        · intro c m _
          rfl
        · intro w o hA
          exact h.closeRes w o (by simpa using hA)
      · intro c m hcm
        exact absurd hcm (by simp)
    | err c m =>
      refine qinv_settleOpenInner ?_ ?_
      · obtain ⟨lo, hscan, hlo, hlon⟩ := h.scan
        refine ⟨⟨lo, by simpa using hscan, by simpa using hlo, by simpa using hlon⟩,
          by simpa using h.qsorted, ?_, by simpa using h.openPlt,
          by simpa using h.closePlt, ?_, ?_, ?_, ?_, ?_⟩
        · intro t ht
          exact h.qbound t (by simpa using ht)
        · intro a hA
          exact h.activeLt a (by simpa using hA)
        · intro p u hm
          exact h.settleKey p u (by simpa using hm)
        · intro c2 m2 _
          rfl
        · intro c2 m2 _
          rfl
        · intro w o hA
          exact h.closeRes w o (by simpa using hA)
      · intro c2 m2 _
        rfl

theorem qinv_matchLoop (ms : List (List Char)) {s : SState} (h : QInv s) :
    QInv (matchLoop s ms) := by
  induction ms generalizing s with
  | nil => exact h
  | cons m rest ih =>
    unfold matchLoop
    by_cases hp : (matchStep s m).2 = true
    · rw [if_pos hp]
      exact (qinv_matchStep m h).rebuild rfl rfl rfl rfl rfl rfl rfl rfl
    · rw [if_neg hp]
      exact ih (qinv_matchStep m h)

theorem qinv_foldLines (ls : List (List Char)) {s : SState} (h : QInv s) :
    QInv (ls.foldl lineStep s) := by
  induction ls generalizing s with
  | nil => exact h
  | cons l rest ih => exact ih (qinv_matchLoop _ h)

theorem qinv_dataStep {s : SState} (c : List Char) (h : QInv s) :
    QInv (dataStep s c) := by
  unfold dataStep
  cases hp : s.proc with
  | none => exact h
  | some pr =>
    by_cases hl : s.listener = true
    · rw [if_pos hl]
      exact qinv_drain (qinv_foldLines _ (h.rebuild rfl rfl rfl rfl rfl rfl rfl rfl))
    · rw [if_neg hl]
      exact h

theorem qinv_procCloseStep {s : SState} (h : QInv s) : QInv (procCloseStep s) := by
  unfold procCloseStep
  cases hp : s.proc with
  | none => exact h
  | some pr =>
    have h1 : QInv { s with
        proc := none, port := none, pid := none,
        isRunning := false, isClosing := false,
        log := s.log ++ [Note.emit "close"] } := by
      obtain ⟨lo, hscan, hlo, hlon⟩ := h.scan
      refine ⟨⟨lo, ?_, by simpa using hlo, by simpa using hlon⟩,
        by simpa using h.qsorted, ?_, by simpa using h.openPlt,
        by simpa using h.closePlt, ?_, ?_, ?_, ?_, ?_⟩
      · simp only []
        refine serialScan_append_pass _ (by simpa using hscan) ?_
        intro n hn
        simp only [List.mem_singleton] at hn
        simp [hn, passNote]
      · intro t ht
        exact h.qbound t (by simpa using ht)
      · intro a hA
        exact h.activeLt a (by simpa using hA)
      · intro p u hm
        exact h.settleKey p u (by simpa using hm)
      · intro c m hl
        exact h.rejLookup c m (by simpa using hl)
      · intro c m hA
        exact h.rejActive c m (by simpa using hA)
      · intro w o hA
        exact h.closeRes w o (by simpa using hA)
    dsimp only
    cases ha : s.active with
    | none => exact qinv_drain (by simpa [ha] using h1)
    | some a =>
      cases a with
      | openBody w io =>
        exact qinv_drain (by simpa [ha] using h1)
      | closeBody w io =>
        cases io with
        | some u => exact qinv_drain (by simpa [ha] using h1)
        | none =>
          apply qinv_drain
          obtain ⟨lo, hscan, hlo, hlon⟩ := h1.scan
          rw [show ({ s with
            proc := none, port := none, pid := none,
            isRunning := false, isClosing := false,
            log := s.log ++ [Note.emit "close"] } : SState).active = s.active from rfl,
            ha] at hscan
          have hwn : w < s.nextP := by simpa [Active.wrapperOf] using h.activeLt _ ha
          refine ⟨⟨lo, by simpa using hscan, by simpa using hlo, by simpa using hlon⟩,
            by simpa using h1.qsorted, ?_, by simpa using h1.openPlt,
            by simpa using h1.closePlt, ?_, ?_, ?_, ?_, ?_⟩
          · intro t ht
            exact h1.qbound t (by simpa using ht)
          · intro a hA
            simp only [Option.some.injEq] at hA
            simp [← hA, Active.wrapperOf, hwn]
          · intro p u hm
            exact h1.settleKey p u (by simpa using hm)
          · intro c m hl
            exact h1.rejLookup c m (by simpa using hl)
          · intro c m hA
            simp at hA
          · intro w2 o2 hA
            simp only [Option.some.injEq, Active.closeBody.injEq] at hA
            exact hA.2.symm

theorem qinv_callOpen {s : SState} (h : QInv s) : QInv (callOpen s).1 := by
  unfold callOpen
  by_cases ho : s.isOpening = true
  · rw [if_pos ho]
    exact h
  · rw [if_neg ho]
    apply qinv_drain
    apply qinv_tryDequeue
    obtain ⟨lo, hscan, hlo, hlon⟩ := h.scan
    refine ⟨⟨lo, by simpa using hscan, ?_, by simp; omega⟩, ?_, ?_, ?_, ?_, ?_, ?_, ?_, ?_, ?_⟩
    · intro t ht
      simp only [List.mem_append, List.mem_singleton] at ht
      rcases ht with ht | ht
      · simpa using hlo t (by simpa using ht)
      · simp [ht]
        omega
    · simp only []
      rw [List.pairwise_append]
      refine ⟨h.qsorted, by simp, ?_⟩
      intro a haq b hb
      simp only [List.mem_singleton] at hb
      have := h.qbound a haq
      simp [hb]
      omega
    · intro t ht
      simp only [List.mem_append, List.mem_singleton] at ht
      rcases ht with ht | ht
      · have := h.qbound t ht
        simp only []
        omega
      · simp [ht]
    · simp only []
      omega
    · have := h.closePlt
      simp only []
      omega
    · intro a hA
      have := h.activeLt a (by simpa using hA)
      simp only []
      omega
    · intro p u hm
      have := h.settleKey p u (by simpa using hm)
      simp only []
      omega
    · intro c m hl
      simp only [] at hl
      rw [lookup_none_of_keys_lt s.settles s.nextP h.settleKey] at hl
      exact absurd hl (by simp)
    · intro c m hA
      have := h.activeLt _ (by simpa using hA)
      simp only [Active.wrapperOf] at this
      omega
    · intro w o hA
      exact h.closeRes w o (by simpa using hA)

theorem qinv_callClose {s : SState} (h : QInv s) : QInv (callClose s).1 := by
  unfold callClose
  by_cases hc : s.isClosing = true
  · rw [if_pos hc]
    exact h
  · rw [if_neg hc]
    apply qinv_drain
    apply qinv_tryDequeue
    obtain ⟨lo, hscan, hlo, hlon⟩ := h.scan
    refine ⟨⟨lo, by simpa using hscan, ?_, by simp; omega⟩, ?_, ?_, ?_, ?_, ?_, ?_, ?_, ?_, ?_⟩
    · intro t ht
      simp only [List.mem_append, List.mem_singleton] at ht
      rcases ht with ht | ht
      · simpa using hlo t (by simpa using ht)
      · simp [ht]
        omega
    · simp only []
      rw [List.pairwise_append]
      refine ⟨h.qsorted, by simp, ?_⟩
      intro a haq b hb
      simp only [List.mem_singleton] at hb
      have := h.qbound a haq
      simp [hb]
      omega
    · intro t ht
      simp only [List.mem_append, List.mem_singleton] at ht
      rcases ht with ht | ht
      · have := h.qbound t ht
        simp only []
        omega
      · simp [ht]
    · have := h.openPlt
      simp only []
      omega
    · simp only []
      omega
    · intro a hA
      have := h.activeLt a (by simpa using hA)
      simp only []
      omega
    · intro p u hm
      have := h.settleKey p u (by simpa using hm)
      simp only []
      omega
    · intro c m _
      rfl
    · intro c m _
      rfl
    · intro w o hA
      exact h.closeRes w o (by simpa using hA)

theorem qinv_step {s : SState} (e : XEv) (h : QInv s) : QInv (step s e) := by
  cases e with
  | callO => exact qinv_callOpen h
  | callC => exact qinv_callClose h
  | data c => exact qinv_dataStep _ h
  | procClose => exact qinv_procCloseStep h

theorem qinv_foldSteps (tr : List XEv) {s : SState} (h : QInv s) :
    QInv (tr.foldl step s) := by
  induction tr generalizing s with
  | nil => exact h
  | cons e rest ih => exact ih (qinv_step e h)

/-- Every reachable state of an instance satisfies the standing invariant. -/
theorem qinv_run (tr : List XEv) : QInv (run tr) :=
  qinv_foldSteps tr qinv_init

theorem settleP_proc (s : SState) (p : Nat) (o : Settle) :
    (settleP s p o).proc = s.proc := by
  unfold settleP
  split <;> rfl

theorem settleActive_empty {s : SState} (hq : s.queue = []) :
    (settleActive s).proc = s.proc ∧ (settleActive s).queue = [] := by
  unfold settleActive
  cases ha : s.active with
  | none => exact ⟨rfl, hq⟩
  | some a =>
    cases a with
    | openBody w io =>
      cases io with
      | none => exact ⟨rfl, hq⟩
      | some o =>
        unfold tryDequeue
        have hqq : (settleP s w o).queue = s.queue := (settleP_fields s w o).1
        simp [hqq, hq, settleP_proc]
    | closeBody w io =>
      cases io with
      | none => exact ⟨rfl, hq⟩
      | some o =>
        unfold tryDequeue
        have hqq : (settleP s w o).queue = s.queue := (settleP_fields s w o).1
        simp [hqq, hq, settleP_proc]

theorem drainFuel_empty_proc (fuel : Nat) {s : SState} (hq : s.queue = [])
    (hp : s.proc = none) : (drainFuel fuel s).proc = none := by
  induction fuel generalizing s with
  | zero => exact hp
  | succ n ih =>
    unfold drainFuel
    by_cases h1 : activeDone s = true
    · rw [if_pos h1]
      obtain ⟨hpr, hqu⟩ := settleActive_empty hq
      exact ih hqu (hpr.trans hp)
    · rw [if_neg h1, if_neg (by simp [hq])]
      exact hp

/- ### Claim theorems: configuration, aggregator, callback -/

/-- C1: evaluation of `getTextLineAggregator` at the failing inputs.  A fresh
aggregator fed the single chunk "abc" — zero newlines, so zero
newline-terminated lines — invokes its callback once, with the fabricated
line "undefined" (`lines[0] = buffer + lines[0]` on the empty `lines` array);
and the chunks "x\na\r" / "\nb\n" — a chunk boundary splitting a `\r\n`
pair — deliver "a\r" where the text between separators is "a".  The claim
requires zero invocations in the first case and the exact text in the
second. -/
theorem c1_aggregator_failing_eval :
    (aggRun ["abc".data]).1 = ["undefined".data] ∧
    (aggRun ["x\na\r".data, "\nb\n".data]).1 = ["x".data, "a\r".data, "b".data] := by
  decide

/-- C7: `parseFlags` on a config with `nojournal: true`, `storageEngine:
'inMemory'`, `dbpath: '/data/db'`, `port: 27017` and no config-file path
returns only the dbpath and port flags; the `--nojournal` and
`--storageEngine` flags required by the claim — and by the repository's own
changelog (0.1.0, 0.2.0) and test suite, recorded as `parseFlagsSpec` — are
missing from the output. -/
theorem c7_parseFlags_failing_eval :
    parseFlags c7config =
      [.vstr "--dbpath", .vstr "/data/db", .vstr "--port", .vnum 27017] ∧
    JsVal.vstr "--nojournal" ∉ parseFlags c7config ∧
    parseFlagsSpec c7config =
      [.vstr "--nojournal", .vstr "--storageEngine", .vstr "inMemory",
       .vstr "--dbpath", .vstr "/data/db", .vstr "--port", .vnum 27017] := by
  decide

/-- C10: constructing with a number or string argument sets `config.port` to
exactly that value while keeping `bin`, `conf`, `dbpath` at their defaults;
an object argument is merged into the same defaults by `parseConfig`; no
argument, `null`, or a boolean leaves the default config
`{bin: 'mongod', conf: null, port: 27017, dbpath: null}` unchanged. -/
theorem c10_constructor_config :
    (∀ n : Int, construct (.num n) =
      { bin := .vstr "mongod", conf := .vnull, port := .vnum n, dbpath := .vnull,
        storageEngine := .vundef, nojournal := .vundef }) ∧
    (∀ s : String, construct (.str s) =
      { bin := .vstr "mongod", conf := .vnull, port := .vstr s, dbpath := .vnull,
        storageEngine := .vundef, nojournal := .vundef }) ∧
    (∀ o : Config, construct (.obj o) = parseConfig (some o) (some defaultConfig)) ∧
    construct .nullA = defaultConfig ∧
    construct .undef = defaultConfig ∧
    (∀ b : Bool, construct (.bool b) = defaultConfig) ∧
    defaultConfig =
      { bin := .vstr "mongod", conf := .vnull, port := .vnum 27017, dbpath := .vnull,
        storageEngine := .vundef, nojournal := .vundef } :=
  ⟨fun _ => rfl, fun _ => rfl, fun _ => rfl, rfl, rfl, fun _ => rfl, rfl⟩

/-- C8 counterexample: on successful settlement the completion callback is
invoked with the single argument `null`, not with the two arguments
`(null, null)` the claim states. -/
theorem c8_callback_counterexample :
    openWithCallback .resolved = [[JsArg.nullV]] ∧ [JsArg.nullV].length ≠ 2 := by
  decide

/-- C8 (amended): for every settlement of the attempt returned by `open()` or
`close()`, the optional completion callback is invoked exactly once, with a
single argument: the rejection error when the attempt rejects, `null` when it
resolves (a JS `then`/`catch` handler receives one argument; the callback's
second parameter reads `undefined`). -/
theorem c8_callback_amended (o : Settle) :
    openWithCallback o =
      [[match o with
        | .resolved => JsArg.nullV
        | .rejected c m => JsArg.errV c m]] := by
  cases o <;> rfl

/- ### Claim theorems: lifecycle machine -/

/-- C6 counterexample: with open attempt 2 still pending (unsettled), an
intervening `close()` clears `isOpening`, so a further `open()` returns the
distinct new attempt 4 rather than the identical pending attempt the claim
promises. -/
theorem c6_counterexample :
    ((callClose (callOpen init).1).1).settles.lookup (callOpen init).2 = none ∧
    (callOpen ((callClose (callOpen init).1).1)).2 ≠ (callOpen init).2 := by
  decide

/-- C6 (amended): while the `isOpening` flag is set — that is, while an open
attempt is pending and no `close()` has intervened — every further call to
`open()` returns the identical pending attempt and leaves the state
untouched: no new process is spawned and no further "opening"/"open"
notification is emitted.  An intervening `close()` clears the flag, after
which `open()` creates a new attempt. -/
theorem c6_open_coalesces (s : SState) (h : s.isOpening = true) :
    callOpen s = (s, s.openP) := by
  simp [callOpen, h]

/-- Witness for `c6_open_coalesces` at the state reached by one `open()`. -/
theorem c6_open_coalesces_witness :
    (run [.callO]).isOpening = true ∧
    callOpen (run [.callO]) = (run [.callO], (run [.callO]).openP) :=
  ⟨by decide, c6_open_coalesces _ (by decide)⟩

/-- C3 counterexample: the instance opens, receives the readiness line in one
chunk and `pid=42` in the next chunk; the classifying listener was removed
when `Ready` resolved the attempt, so the pid is never captured although the
later line carries a Pid signal. -/
theorem c3_counterexample :
    classify "pid=42" = [.pid 42] ∧
    (run [.callO, .data "waiting for connections\n", .data "pid=42\n"]).isRunning = true ∧
    (run [.callO, .data "waiting for connections\n", .data "pid=42\n"]).pid = none := by
  decide

/-- C3 (amended): pid/port signals are captured as soon as seen while the
classifying listener is attached — in lines before the readiness line, or in
the remaining lines of the very chunk that contains it; once `Ready` resolves
the attempt the listener is removed, so chunks after that one no longer
update pid or port. -/
theorem c3_pid_port_capture :
    (∀ (s : SState) (c : List Char), s.listener = false →
      (dataStep s c).pid = s.pid ∧ (dataStep s c).port = s.port) ∧
    (run [.callO, .data "pid=42\nwaiting for connections\nport=99\n"]).pid = some 42 ∧
    (run [.callO, .data "pid=42\nwaiting for connections\nport=99\n"]).port = some 99 ∧
    (run [.callO, .data "waiting for connections\n"]).listener = false := by
  refine ⟨?_, by decide, by decide, by decide⟩
  intro s c h
  unfold dataStep
  cases hp : s.proc <;> simp [h]

/-- Witness for `c3_pid_port_capture` at a post-readiness state. -/
theorem c3_pid_port_capture_witness :
    (run [.callO, .data "waiting for connections\n"]).listener = false ∧
    (dataStep (run [.callO, .data "waiting for connections\n"]) "pid=9\n".data).pid =
      (run [.callO, .data "waiting for connections\n"]).pid :=
  ⟨by decide, (c3_pid_port_capture.1 _ _ (by decide)).1⟩

/-- C5 counterexample: after `open()` and an error line the attempt (promise
2) is rejected, yet the instance still retains the spawned process handle at
that moment — the handle is only cleared by the later process `close`
event. -/
theorem c5_counterexample :
    (run [.callO, .data "exception in initAndListen: boom\n"]).settles.lookup
        (run [.callO, .data "exception in initAndListen: boom\n"]).openP =
      some (.rejected (-1) "exception in initAndListen: boom".data) ∧
    (run [.callO, .data "exception in initAndListen: boom\n"]).proc = some 0 := by
  decide

/-- C5 (amended): for every trace, whenever the current open attempt is
rejected the `isOpening` flag is false; the spawned process handle, however,
stays attached until the process `close` event, which clears it (with no
queued body waiting, the close event always leaves no handle, and in
particular it clears the handle left behind by the rejected attempt of
`c5_counterexample`). -/
theorem c5_rejection_state :
    (∀ (tr : List XEv) (c : Int) (m : List Char),
      (run tr).settles.lookup (run tr).openP = some (.rejected c m) →
      (run tr).isOpening = false) ∧
    (∀ s : SState, s.queue = [] → (procCloseStep s).proc = none) ∧
    (run [.callO, .data "exception in initAndListen: boom\n", .procClose]).proc = none := by
  refine ⟨fun tr c m h => (qinv_run tr).rejLookup c m h, ?_, by decide⟩
  intro s hq
  unfold procCloseStep
  cases hp : s.proc with
  | none => exact hp
  | some pr =>
    dsimp only
    cases ha : s.active with
    | none => exact drainFuel_empty_proc _ hq rfl
    | some a =>
      cases a with
      | openBody w io => exact drainFuel_empty_proc _ hq rfl
      | closeBody w io =>
        cases io with
        | some u => exact drainFuel_empty_proc _ hq rfl
        | none => exact drainFuel_empty_proc _ hq rfl

/-- Witness for `c5_rejection_state` at the failing trace of
`c5_counterexample`. -/
theorem c5_rejection_state_witness :
    (run [.callO, .data "exception in initAndListen: boom\n"]).isOpening = false :=
  c5_rejection_state.1 [.callO, .data "exception in initAndListen: boom\n"]
    (-1) "exception in initAndListen: boom".data (by decide)

/-- C2: in every interleaving of open/close calls and process events, the
queued operation bodies never execute concurrently: the event log always
passes `serialScan`, which fails whenever a body starts while another is
running, starts out of call order (wrapper ids are allocated in call order),
or ends while none is running — so each enqueued body runs to completion
before the next begins, in call order.  In particular, after `open()`
followed immediately by `close()`, the close body (wrapper 3) starts only
after the open body (wrapper 2) has settled, and the final state is idle
with no process, as the concrete cycle shows. -/
theorem c2_bodies_serialized :
    (∀ tr : List XEv, (serialScan none 0 (run tr).log).isSome = true) ∧
    (run [.callO, .callC, .data "waiting for connections\n", .procClose]).log =
      [.bodyStart 2, .emit "opening", .spawn 0, .emit "open", .bodyEnd 2,
       .bodyStart 3, .emit "closing", .kill 0, .emit "close", .bodyEnd 3] ∧
    (run [.callO, .callC, .data "waiting for connections\n", .procClose]).isRunning = false ∧
    (run [.callO, .callC, .data "waiting for connections\n", .procClose]).proc = none := by
  refine ⟨?_, by decide, by decide, by decide⟩
  intro tr
  obtain ⟨lo, hsc, -, -⟩ := (qinv_run tr).scan
  simp [hsc]

/-- C4 counterexample: the line `error waiting for connections` contains the
phrase `waiting for connections`, yet the classifier yields no Ready signal —
the `(error|exception|badvalue)(.|\n)*` alternative matches first and
swallows the whole line — and it does yield an error signal. -/
theorem c4_counterexample :
    containsCI "waiting for connections".data
        "error waiting for connections".data = true ∧
    Signal.ready ∉ classify "error waiting for connections" ∧
    Signal.err (-1) "error waiting for connections".data ∈
      classify "error waiting for connections" :=
  ⟨by decide, by decide, by decide⟩

/-- C4 (amended): for every line that contains the exact single-space phrase
`waiting for connections` (case-insensitively) and contains no
`error`/`exception`/`badvalue` token, no `already\s+in\s+use` phrase and no
`denied\s+for\s+socket` phrase, the classifier yields a Ready signal and
yields no error signal on that line. -/
theorem c4_ready_classified (s : String)
    (hw : containsCI "waiting for connections".data s.data = true)
    (ht : containsToken s.data = false)
    (ha : containsSpaced "already".data "in".data "use".data s.data = false)
    (hd : containsSpaced "denied".data "for".data "socket".data s.data = false) :
    Signal.ready ∈ classify s ∧ ∀ sig ∈ classify s, sig.isErr = false := by
  constructor
  · obtain ⟨m, hm, hcm⟩ := ready_found s.data.length s.data le_rfl hw ht ha hd
    exact List.mem_filterMap.mpr ⟨m, hm, hcm⟩
  · intro sig hsig
    obtain ⟨m, hm, hcl⟩ := List.mem_filterMap.mp hsig
    obtain ⟨hshape, a, b, hab⟩ := jsMatchAll_shape hm
    rcases hshape with h | h | h | h | h | h
    · obtain ⟨n, hn⟩ := classifyMatch_pid h
      rw [hn] at hcl
      obtain rfl := Option.some.inj hcl
      rfl
    · obtain ⟨n, hn⟩ := classifyMatch_port h
      rw [hn] at hcl
      obtain rfl := Option.some.inj hcl
      rfl
    · rcases classifyMatch_waiting h with h2 | h2 <;> rw [h2] at hcl
      · obtain rfl := Option.some.inj hcl
        rfl
      · cases hcl
    · exfalso
      have hph := phraseAlt_of_shape (X := b) h (by decide) (by decide)
        (head_fixed (x := 'i') rfl (by decide)) (head_fixed (x := 'u') rfl (by decide))
      have hcs : containsSpaced "already".data "in".data "use".data
          (a ++ (m ++ b)) = true := containsSpaced_suffix hph
      rw [← List.append_assoc, ← hab] at hcs
      exact absurd hcs (by simp [ha])
    · exfalso
      have hph := phraseAlt_of_shape (X := b) h (by decide) (by decide)
        (head_fixed (x := 'f') rfl (by decide)) (head_fixed (x := 's') rfl (by decide))
      have hcs : containsSpaced "denied".data "for".data "socket".data
          (a ++ (m ++ b)) = true := containsSpaced_suffix hph
      rw [← List.append_assoc, ← hab] at hcs
      exact absurd hcs (by simp [hd])
    · exfalso
      have htok : containsToken s.data = true := by
        rcases h with ⟨r, hr⟩ | ⟨r, hr⟩ | ⟨r, hr⟩
        · have hcc : containsCI "error".data m = true :=
            containsCI_head (by simp [(litCI_pref hr).1])
          have h2 := containsCI_infix (x := a) (y := b) hcc
          rw [← hab] at h2
          simp [containsToken, h2]
        · have hcc : containsCI "exception".data m = true :=
            containsCI_head (by simp [(litCI_pref hr).1])
          have h2 := containsCI_infix (x := a) (y := b) hcc
          rw [← hab] at h2
          simp [containsToken, h2]
        · have hcc : containsCI "badvalue".data m = true :=
            containsCI_head (by simp [(litCI_pref hr).1])
          have h2 := containsCI_infix (x := a) (y := b) hcc
          rw [← hab] at h2
          simp [containsToken, h2]
      exact absurd htok (by simp [ht])

/-- Witness for `c4_ready_classified` at a realistic readiness line. -/
theorem c4_ready_classified_witness :
    (containsCI "waiting for connections".data
        "waiting for connections on port 27017".data = true ∧
      containsToken "waiting for connections on port 27017".data = false ∧
      containsSpaced "already".data "in".data "use".data
        "waiting for connections on port 27017".data = false ∧
      containsSpaced "denied".data "for".data "socket".data
        "waiting for connections on port 27017".data = false) ∧
    (Signal.ready ∈ classify "waiting for connections on port 27017" ∧
      ∀ sig ∈ classify "waiting for connections on port 27017",
        sig.isErr = false) :=
  ⟨⟨by decide, by decide, by decide, by decide⟩,
    c4_ready_classified "waiting for connections on port 27017"
      (by decide) (by decide) (by decide) (by decide)⟩

/-- C9: every error signal the classifier produces carries a fixed code and
message determined by its category: a match of the
`(error|exception|badvalue)(.|\n)*` alternative yields code `-1` with the
trimmed matched text as message; an `already\s+in\s+use` match yields code
`-2` with message `Address already in use`; a `denied\s+for\s+socket` match
yields code `-3` with message `Permission denied`. -/
theorem c9_error_taxonomy (s : String) (sig : Signal)
    (hmem : sig ∈ classify s) (hiserr : sig.isErr = true) :
    (∃ m ∈ jsMatchAll s.data, errorTest m = true ∧
        sig = .err (-1) (jsTrim m)) ∨
      sig = .err (-2) "Address already in use".data ∨
      sig = .err (-3) "Permission denied".data := by
  obtain ⟨m, hm, hcl⟩ := List.mem_filterMap.mp hmem
  have hshape := (jsMatchAll_shape hm).1
  rcases hshape with h | h | h | h | h | h
  · obtain ⟨n, hn⟩ := classifyMatch_pid h
    rw [hn] at hcl
    obtain rfl := Option.some.inj hcl
    simp [Signal.isErr] at hiserr
  · obtain ⟨n, hn⟩ := classifyMatch_port h
    rw [hn] at hcl
    obtain rfl := Option.some.inj hcl
    simp [Signal.isErr] at hiserr
  · rcases classifyMatch_waiting h with h2 | h2 <;> rw [h2] at hcl
    · obtain rfl := Option.some.inj hcl
      simp [Signal.isErr] at hiserr
    · cases hcl
  · rcases classifyMatch_already h with h2 | h2 <;> rw [h2] at hcl
    · obtain rfl := Option.some.inj hcl
      exact Or.inr (Or.inl rfl)
    · cases hcl
  · rcases classifyMatch_denied h with h2 | h2 <;> rw [h2] at hcl
    · obtain rfl := Option.some.inj hcl
      exact Or.inr (Or.inr rfl)
    · cases hcl
  · have hn := classifyMatch_errshape h
    rw [hn] at hcl
    obtain rfl := Option.some.inj hcl
    exact Or.inl ⟨m, hm, errShape_errorTest h, rfl⟩

/-- Witness for `c9_error_taxonomy` at a concrete exception line. -/
theorem c9_error_taxonomy_witness :
    (Signal.err (-1) "exception in initAndListen: 98".data ∈
        classify "exception in initAndListen: 98" ∧
      (Signal.err (-1) "exception in initAndListen: 98".data).isErr = true) ∧
    ((∃ m ∈ jsMatchAll "exception in initAndListen: 98".data,
        errorTest m = true ∧
          Signal.err (-1) "exception in initAndListen: 98".data =
            Signal.err (-1) (jsTrim m)) ∨
      Signal.err (-1) "exception in initAndListen: 98".data =
        Signal.err (-2) "Address already in use".data ∨
      Signal.err (-1) "exception in initAndListen: 98".data =
        Signal.err (-3) "Permission denied".data) :=
  ⟨⟨by decide, rfl⟩,
    c9_error_taxonomy "exception in initAndListen: 98" _ (by decide) rfl⟩

end MongodModel
